import Mathlib

/-!
Shallow embedding of the chunk-routing table engine of
`src/mongo/s/chunk_manager_inlock.cpp` (class `ChunkManagerWithLock`).

Modelling conventions:
* BSON shard-key values are modelled single-field: one `BElem`, with the BSON
  `MinKey` / `MaxKey` types as explicit sentinel constructors and every other
  comparable value as an integer.  `checkAllElementsAreOfType(MinKey, o)`
  therefore becomes an equality with the sentinel.
* The order-preserving `KeyString` encoding
  (`extractKeyStringInternalWithLock`) is modelled as the identity on keys:
  its contract (spec §4.1) is exactly that byte order of encodings equals
  shard-key order, so the encoded map key of a chunk is the chunk's max key.
* `std::map` (the `ChunkMap` ordered by encoded max key, and the
  `ShardVersionMap` ordered by shard id) is modelled as a sorted association
  list; `upper_bound` / `lower_bound` / `erase(first, last)` / `insert` are
  modelled index-wise on that list.
* `uassert` failures (thrown exceptions) and `invariant` failures (fatal
  aborts) are both modelled as `Except.error`; the distinction that matters
  for the claims — which state survives a failure — is modelled by having the
  in-place patch return its partially mutated state alongside the error.
* The process-global `AtomicUInt32 nextCMILSequenceNumber` is threaded
  explicitly: every operation that may call `addAndFetch` takes the current
  counter value and returns the new one.  `addAndFetch(1)` on a `u32` is
  `(counter + 1) % 2^32`.
-/

instance {ε α : Type} [DecidableEq ε] [DecidableEq α] :
    DecidableEq (Except ε α) := fun a b =>
  match a, b with
  | .error e, .error e' =>
    if h : e = e' then .isTrue (by rw [h]) else .isFalse (by simp [h])
  | .ok x, .ok y =>
    if h : x = y then .isTrue (by rw [h]) else .isFalse (by simp [h])
  | .error _, .ok _ => .isFalse (by simp)
  | .ok _, .error _ => .isFalse (by simp)

namespace MongoS

/-- One shard-key field value.  BSON `MinKey` and `MaxKey` are the global
sentinels; every other comparable value is modelled by an integer. -/
inductive BElem where
  | minKey : BElem
  | val : Int → BElem
  | maxKey : BElem
deriving DecidableEq

/-- BSON comparison of two key values: `MinKey` below everything, `MaxKey`
above everything, integers ordered as usual. -/
def BElem.leb : BElem → BElem → Bool
  | .minKey, _ => true
  | .val a, .val b => decide (a ≤ b)
  | .val _, .maxKey => true
  | .val _, .minKey => false
  | .maxKey, .maxKey => true
  | .maxKey, .minKey => false
  | .maxKey, .val _ => false

/-- Strict BSON comparison, as the complement of `leb` (the order is total). -/
def BElem.ltb (a b : BElem) : Bool := !(BElem.leb b a)

instance : LinearOrder BElem where
  le a b := BElem.leb a b = true
  lt a b := BElem.ltb a b = true
  le_refl a := by cases a <;> simp [BElem.leb]
  le_trans a b c := by
    cases a <;> cases b <;> cases c <;> simp [BElem.leb] <;> omega
  le_antisymm a b := by
    cases a <;> cases b <;> simp [BElem.leb] <;> omega
  le_total a b := by
    cases a <;> cases b <;> simp [BElem.leb] <;> omega
  lt_iff_le_not_le a b := by
    cases a <;> cases b <;> simp [BElem.leb, BElem.ltb] <;> omega
  decidableLE a b := inferInstanceAs (Decidable (BElem.leb a b = true))
  decidableLT a b := inferInstanceAs (Decidable (BElem.ltb a b = true))
  decidableEq a b := inferInstanceAs (Decidable (a = b))

instance (a b : BElem) : Decidable (a ≤ b) :=
  inferInstanceAs (Decidable (BElem.leb a b = true))

instance (a b : BElem) : Decidable (a < b) :=
  inferInstanceAs (Decidable (BElem.ltb a b = true))

/-- Encoded shard-key values; the encoding is order preserving, so the encoded
key space is order isomorphic to `BElem` and we identify the two. -/
abbrev Key := BElem

/-- `ChunkVersion`: a (major, minor) pair packed into the 64-bit `_combined`
word out of two `u32` halves, plus the collection epoch (an OID, modelled as a
`Nat`). -/
structure ChunkVersion where
  major : Nat
  minor : Nat
  epoch : Nat
deriving DecidableEq

/-- The 64-bit `_combined` representation: `major` in the high and `minor` in
the low 32 bits. -/
def ChunkVersion.combined (v : ChunkVersion) : Nat :=
  (v.major % 4294967296) * 4294967296 + v.minor % 4294967296

/-- `ChunkVersion::operator>=`: compares the combined word only (the epoch is
not part of the comparison). -/
def cvGE (a b : ChunkVersion) : Bool := decide (b.combined ≤ a.combined)

/-- `ChunkVersion::operator>`: compares the combined word only. -/
def cvGT (a b : ChunkVersion) : Bool := decide (b.combined < a.combined)

/-- `ChunkVersion::operator==`: equal epoch and equal combined word. -/
def cvEqOp (a b : ChunkVersion) : Bool :=
  decide (a.epoch = b.epoch) && decide (a.combined = b.combined)

/-- A chunk: half-open key range `[min, max)`, owning shard (`ShardId`,
modelled as a `Nat`), and version (`getLastmod`).  The same record models both
`ChunkType` (diff entries) and `Chunk` (table entries); the source constructs
the latter from the former field-for-field. -/
structure Chunk where
  min : Key
  max : Key
  shard : Nat
  version : ChunkVersion
deriving DecidableEq

/-- `Chunk::containsKey`: `min <= k < max`. -/
def Chunk.containsKey (c : Chunk) (k : Key) : Bool :=
  decide (c.min ≤ k) && decide (k < c.max)

/-- The routing table `ChunkMap`: `std::map` from encoded chunk max key to the
chunk, modelled as an association list sorted strictly ascending by key. -/
abbrev ChunkMap := List (Key × Chunk)

/-- `std::map::upper_bound k` as an index: position of the first entry whose
key is strictly greater than `k` (for a sorted list). -/
def upperBoundIdx (m : ChunkMap) (k : Key) : Nat :=
  match m with
  | [] => 0
  | e :: rest => if e.1 ≤ k then upperBoundIdx rest k + 1 else 0

/-- `std::map::lower_bound k` as an index: position of the first entry whose
key is greater than or equal to `k` (for a sorted list). -/
def lowerBoundIdx (m : ChunkMap) (k : Key) : Nat :=
  match m with
  | [] => 0
  | e :: rest => if e.1 < k then lowerBoundIdx rest k + 1 else 0

/-- `std::map::erase(first, last)` on iterator positions `[lo, hi)`. -/
def eraseRange (m : ChunkMap) (lo hi : Nat) : ChunkMap :=
  m.take lo ++ m.drop hi

/-- `std::map::insert({k, c})`: sorted insertion that does NOT overwrite an
existing entry with the same key. -/
def mapInsert (m : ChunkMap) (k : Key) (c : Chunk) : ChunkMap :=
  match m with
  | [] => [(k, c)]
  | e :: rest =>
    if k < e.1 then (k, c) :: e :: rest
    else if k = e.1 then e :: rest
    else e :: mapInsert rest k c

/-- The sole mutation primitive of both update protocols: erase every chunk in
`[upper_bound(c.min), upper_bound(c.max))` — i.e. every entry whose encoded
max key lies in `(c.min, c.max]` — and insert `c` keyed by its encoded max. -/
def replaceOverlapping (m : ChunkMap) (c : Chunk) : ChunkMap :=
  let low := upperBoundIdx m c.min
  let high := upperBoundIdx m c.max
  mapInsert (eraseRange m low high) c.max c

/-- Strictly ascending key order of the association list (the `std::map`
representation invariant). -/
def sortedKeys : ChunkMap → Bool
  | [] => true
  | [_] => true
  | a :: b :: rest => decide (a.1 < b.1) && sortedKeys (b :: rest)

/-- The spec's routing-table chain invariant relative to a lower boundary
`lo`: each entry is keyed by its chunk's max, each chunk starts exactly at the
previous chunk's max (`lo` for the first), and each chunk's range is
non-empty. -/
def chainFrom (lo : Key) : ChunkMap → Bool
  | [] => true
  | (k, c) :: rest =>
    decide (c.min = lo) && decide (k = c.max) && decide (lo < c.max) &&
      chainFrom c.max rest

/-- The spec's full routing-table invariant (§3): ascending, keyed by max,
gap-free and non-overlapping, and — whenever the table is non-empty — starting
at the global minimum sentinel and ending at the global maximum sentinel. -/
def isValidPartition (m : ChunkMap) : Bool :=
  match m with
  | [] => true
  | (_, c) :: _ =>
    decide (c.min = BElem.minKey) && chainFrom c.min m &&
      (match m.getLast? with
       | some e => decide (e.2.max = BElem.maxKey)
       | none => false)

/-- `k` lies inside the covered space of the table: at or above the first
chunk's min and strictly below the last chunk's max. -/
def coveredKey (m : ChunkMap) (k : Key) : Bool :=
  match m.head?, m.getLast? with
  | some e0, some e1 => decide (e0.2.min ≤ k) && decide (k < e1.2.max)
  | _, _ => false

/-- Error kinds of the engine.  `shardKeyNotFound` models
`ErrorCodes::ShardKeyNotFound` (the spec's `KeyNotCovered` for lookups);
`epochMismatch` models the `ConflictingOperationInProgress` uassert on an
epoch difference; `versionOrderViolation` models the fatal
`invariant(chunkVersion >= collectionVersion)`; `sentinelViolation` models the
`checkAllElementsAreOfType` uassert of `_constructShardVersionMap`. -/
inductive CMError where
  | epochMismatch
  | versionOrderViolation
  | shardKeyNotFound
  | sentinelViolation
deriving DecidableEq

/-- `ChunkManagerWithLock::findIntersectingChunk` after its collation gate
(simple collation): `upper_bound` the encoded key, then uassert that the found
entry exists and actually contains the key. -/
def findIntersectingChunk (m : ChunkMap) (k : Key) : Except CMError Chunk :=
  match m.get? (upperBoundIdx m k) with
  | none => .error .shardKeyNotFound
  | some e => if e.2.containsKey k then .ok e.2 else .error .shardKeyNotFound

/-- `ChunkManagerWithLock::_overlappingRanges`: iterator pair `[itMin, itMax)`
as indices.  `itMin` is `upper_bound(min)`; `itMax` is `upper_bound(max)`
(inclusive max) or `lower_bound(max)` (exclusive max), advanced one position
unless already at the end. -/
def overlappingRanges (m : ChunkMap) (mn mx : Key) (isMaxInclusive : Bool) :
    Nat × Nat :=
  let itMin := upperBoundIdx m mn
  let itMax0 := if isMaxInclusive then upperBoundIdx m mx else lowerBoundIdx m mx
  (itMin, if itMax0 = m.length then itMax0 else itMax0 + 1)

/-- The chunks an iteration from `itMin` to `itMax` visits: the slice of the
table between the two `_overlappingRanges` positions. -/
def chunksInRange (m : ChunkMap) (mn mx : Key) (isMaxInclusive : Bool) :
    List Chunk :=
  let b := overlappingRanges m mn mx isMaxInclusive
  ((m.drop b.1).take (b.2 - b.1)).map (fun e => e.2)

/-- The chunk range `[c.min, c.max)` intersects the queried range
`[mn, mx]` (inclusive max) or `[mn, mx)` (exclusive max): the chunk starts no
later than the query ends and the query starts before the chunk ends. -/
def rangeOverlaps (c : Chunk) (mn mx : Key) (isMaxInclusive : Bool) : Bool :=
  (if isMaxInclusive then decide (c.min ≤ mx) else decide (c.min < mx)) &&
    decide (mn < c.max)

/-- The `ShardVersionMap`: `std::map<ShardId, ChunkVersion>`, modelled as an
association list sorted by shard id. -/
abbrev ShardVersionMap := List (Nat × ChunkVersion)

/-- `std::map::find` on the shard version map. -/
def svmFind (svm : ShardVersionMap) (s : Nat) : Option ChunkVersion :=
  match svm with
  | [] => none
  | e :: rest => if s = e.1 then some e.2 else svmFind rest s

/-- Store `v` under shard id `s` (the net effect of `emplace` on a missing key
followed by assignment through the returned iterator): sorted
insert-or-update. -/
def svmSet (svm : ShardVersionMap) (s : Nat) (v : ChunkVersion) :
    ShardVersionMap :=
  match svm with
  | [] => [(s, v)]
  | e :: rest =>
    if s < e.1 then (s, v) :: e :: rest
    else if s = e.1 then (e.1, v) :: rest
    else e :: svmSet rest s v

/-- The `std::find_if` scan of `_constructShardVersionMap`: starting from the
current position, walk the maximal run of chunks owned by shard `s`, folding
the running maximum version (`getLastmod() > maxShardVersion`) and remembering
the last chunk of the run; stop at the first chunk of a different shard.
Returns (max version, last chunk of the run, remaining entries). -/
def runScan (s : Nat) (v : ChunkVersion) (lastC : Chunk) :
    ChunkMap → ChunkVersion × Chunk × ChunkMap
  | [] => (v, lastC, [])
  | e :: rest =>
    if e.2.shard ≠ s then (v, lastC, e :: rest)
    else runScan s (if cvGT e.2.version v then e.2.version else v) e.2 rest

/-- The outer `while` loop of `_constructShardVersionMap`: per run of
consecutive same-shard chunks, look up (or default to `(0, 0, epoch)`) the
shard's entry, fold the run's maximum into it, and track `firstMin` (set once,
to the first range's min) and `lastMax` (overwritten with each range's max). -/
def svmLoop (epoch : Nat) :
    ChunkMap → ShardVersionMap → Option Key → Option Key →
      ShardVersionMap × Option Key × Option Key
  | [], svm, fm, lm => (svm, fm, lm)
  | (k, c) :: rest, svm, fm, lm =>
    let v0 := (svmFind svm c.shard).getD ⟨0, 0, epoch⟩
    let r := runScan c.shard v0 c ((k, c) :: rest)
    svmLoop epoch r.2.2 (svmSet svm c.shard r.1)
      (some (fm.getD c.min))
      (some r.2.1.max)
  termination_by m _ _ _ => m.length
  decreasing_by
    have h : ∀ (mm : ChunkMap) (v : ChunkVersion) (lc : Chunk),
        (runScan c.shard v lc mm).2.2.length ≤ mm.length := by
      intro mm
      induction mm with
      | nil => intro v lc; simp [runScan]
      | cons e r ih =>
        intro v lc
        by_cases he : e.2.shard ≠ c.shard
        · simp [runScan, he]
        · simp only [runScan, he, if_false]
          exact Nat.le_succ_of_le (ih _ _)
    simp only [runScan, ne_eq, not_true_eq_false, if_false, List.length_cons]
    exact Nat.lt_succ_of_le (h _ _ _)

/-- The fold computing a maximum chunk version (by the combined word, as
`getLastmod() > maxShardVersion` does) starting from the per-shard default
`(0, 0, epoch)`. -/
def cvMaxFold (epoch : Nat) (l : List ChunkVersion) : ChunkVersion :=
  l.foldl (fun a v => if cvGT v a then v else a) ⟨0, 0, epoch⟩

/-- Expected shard-version entry after processing chunk versions `vs` on top
of an existing entry `o`: absent when there was no entry and no chunk,
otherwise the maximum fold over `vs` seeded with the entry (or the default
`(0, 0, epoch)`). -/
def svmExpect (epoch : Nat) (o : Option ChunkVersion)
    (vs : List ChunkVersion) : Option ChunkVersion :=
  match o, vs with
  | none, [] => none
  | _, _ =>
    some (vs.foldl (fun a v => if cvGT v a then v else a)
      (o.getD ⟨0, 0, epoch⟩))

/-- `ChunkManagerWithLock::_constructShardVersionMap`: build the shard version
map; on a non-empty table, uassert that the first chunk's min is all `MinKey`
and the last chunk's max is all `MaxKey` (`checkAllElementsAreOfType`). -/
def constructShardVersionMap (epoch : Nat) (m : ChunkMap) :
    Except CMError ShardVersionMap :=
  let r := svmLoop epoch m [] none none
  if m.isEmpty then .ok r.1
  else
    match r.2.1, r.2.2 with
    | some fm, some lm =>
      if fm = BElem.minKey then
        if lm = BElem.maxKey then .ok r.1 else .error .sentinelViolation
      else .error .sentinelViolation
    | _, _ => .error .sentinelViolation

/-- `AtomicUInt32 nextCMILSequenceNumber`'s `addAndFetch(1)`. -/
def nextSeq (counter : Nat) : Nat := (counter + 1) % 4294967296

/-- The `ChunkManagerWithLock` aggregate state: sequence number, routing
table, shard version index with its cached size, and collection version.
(The namespace string, shard key pattern, collator and uniqueness flag play no
role in the claims and are omitted; the shard key ordering is ascending.) -/
structure ChunkManagerWithLock where
  sequenceNumber : Nat
  chunkMap : ChunkMap
  shardVersions : ShardVersionMap
  shardVersionSize : Nat
  collectionVersion : ChunkVersion
deriving DecidableEq

/-- The `ChunkManagerWithLock` constructor: draw the next sequence number from
the global counter and build the shard version index (whose sentinel uasserts
may fail).  Returns the manager together with the new counter value. -/
def mkChunkManager (counter : Nat) (chunkMap : ChunkMap)
    (collectionVersion : ChunkVersion) :
    Except CMError (ChunkManagerWithLock × Nat) :=
  let seq := nextSeq counter
  match constructShardVersionMap collectionVersion.epoch chunkMap with
  | .error e => .error e
  | .ok svm => .ok (⟨seq, chunkMap, svm, svm.length, collectionVersion⟩, seq)

/-- The per-chunk body of `makeUpdated`'s loop, iterated over the diff list
against a private copy of the table: uassert the chunk's epoch matches the
running collection version's epoch, invariant that its version is not below
the running collection version, advance the running version, and
replace-overlapping into the copy. -/
def applyChunks (cv : ChunkVersion) (m : ChunkMap) :
    List Chunk → Except CMError (ChunkMap × ChunkVersion)
  | [] => .ok (m, cv)
  | c :: rest =>
    if cv.epoch ≠ c.version.epoch then .error .epochMismatch
    else if ¬ cvGE c.version cv then .error .versionOrderViolation
    else applyChunks c.version (replaceOverlapping m c) rest

/-- `ChunkManagerWithLock::makeUpdated`: apply the diff list to a private copy
of the table; if the resulting collection version equals the starting one,
return the same manager instance (`shared_from_this`) without touching the
counter; otherwise construct a brand-new manager from the patched copy. -/
def makeUpdated (mgr : ChunkManagerWithLock) (counter : Nat)
    (changedChunks : List Chunk) :
    Except CMError (ChunkManagerWithLock × Nat) :=
  match applyChunks mgr.collectionVersion mgr.chunkMap changedChunks with
  | .error e => .error e
  | .ok (chunkMap, collectionVersion) =>
    if cvEqOp collectionVersion mgr.collectionVersion then .ok (mgr, counter)
    else mkChunkManager counter chunkMap collectionVersion

/-- The per-chunk loop of `UpdateChunksMap`, mutating the live table: the same
validation as `makeUpdated`, then replace-overlapping in place and a monotonic
update of the owning shard's entry in the live shard version map.  A failed
validation throws out of the loop: the fields mutated so far keep their new
values, which is why the partially updated manager is returned alongside the
error. -/
def updateChunksMapLoop (cv : ChunkVersion) (mgr : ChunkManagerWithLock) :
    List Chunk → ChunkManagerWithLock × ChunkVersion × Option CMError
  | [] => (mgr, cv, none)
  | c :: rest =>
    if cv.epoch ≠ c.version.epoch then (mgr, cv, some .epochMismatch)
    else if ¬ cvGE c.version cv then (mgr, cv, some .versionOrderViolation)
    else
      let m' := replaceOverlapping mgr.chunkMap c
      let svm' :=
        match svmFind mgr.shardVersions c.shard with
        | none => svmSet mgr.shardVersions c.shard c.version
        | some old =>
          if cvGT c.version old then svmSet mgr.shardVersions c.shard c.version
          else mgr.shardVersions
      updateChunksMapLoop c.version
        { mgr with chunkMap := m', shardVersions := svm' } rest

/-- `ChunkManagerWithLock::UpdateChunksMap`: run the in-place loop; only when
the whole batch validated does the trailing exclusive section run, which
refreshes the cached shard version map size, bumps the sequence number iff the
collection version changed, and stores the running collection version. -/
def UpdateChunksMap (mgr : ChunkManagerWithLock) (counter : Nat)
    (changedChunks : List Chunk) :
    ChunkManagerWithLock × Nat × Option CMError :=
  let r := updateChunksMapLoop mgr.collectionVersion mgr changedChunks
  match r.2.2 with
  | some e => (r.1, counter, some e)
  | none =>
    let sz := r.1.shardVersions.length
    if cvEqOp r.1.collectionVersion r.2.1 then
      ({ r.1 with shardVersionSize := sz, collectionVersion := r.2.1 },
        counter, none)
    else
      let bumped := { r.1 with shardVersionSize := sz,
                               collectionVersion := r.2.1,
                               sequenceNumber := nextSeq counter }
      (bumped, nextSeq counter, none)

/-- `std::set<ShardId>::insert`, on a sorted duplicate-free list. -/
def setInsert (s : List Nat) (x : Nat) : List Nat :=
  match s with
  | [] => [x]
  | y :: rest =>
    if x < y then x :: y :: rest
    else if x = y then y :: rest
    else y :: setInsert rest x

/-- The chunk iteration of `getShardIdsForRange`: insert each visited chunk's
shard, breaking as soon as the accumulated set reaches the cached number of
shards owning chunks. -/
def insertShardsLoop (svSize : Nat) :
    List Chunk → List Nat → List Nat
  | [], acc => acc
  | c :: rest, acc =>
    let acc' := setInsert acc c.shard
    if acc'.length = svSize then acc' else insertShardsLoop svSize rest acc'

/-- `ChunkManagerWithLock::getShardIdsForRange` (always called with an
inclusive max): collect the shards of every chunk between the
`_overlappingRanges` iterators into the accumulator. -/
def getShardIdsForRange (mgr : ChunkManagerWithLock) (mn mx : Key)
    (acc : List Nat) : List Nat :=
  insertShardsLoop mgr.shardVersionSize (chunksInRange mgr.chunkMap mn mx true)
    acc

/-- The range loop of `getShardIdsForQuery`: resolve each flattened shard-key
range, breaking once every known shard has been accumulated. -/
def rangesLoop (mgr : ChunkManagerWithLock) :
    List (Key × Key) → List Nat → List Nat
  | [], acc => acc
  | r :: rest, acc =>
    let acc' := getShardIdsForRange mgr r.1 r.2 acc
    if acc'.length = mgr.shardVersionSize then acc'
    else rangesLoop mgr rest acc'

/-- The tail of `ChunkManagerWithLock::getShardIdsForQuery`, taking the
flattened bound list produced by the (external) planner and
`ShardKeyPattern::flattenBounds` as input: accumulate shards over all ranges,
and if the set is still empty fall back to inserting
`_shardVersions.begin()->first` (SERVER-4914).  `none` models the undefined
behaviour of dereferencing `begin()` of an empty shard version map. -/
def getShardIdsForQueryFromRanges (mgr : ChunkManagerWithLock)
    (ranges : List (Key × Key)) : Option (List Nat) :=
  let acc := rangesLoop mgr ranges []
  if acc.isEmpty then
    match mgr.shardVersions.head? with
    | none => none
    | some e => some (setInsert acc e.1)
  else some acc

/-- An `OrderedIntervalList`: the interval list of one shard-key field, each
interval given by its two endpoints. -/
structure OIL where
  intervals : List (Key × Key)
deriving DecidableEq

/-- `IndexBounds`: one `OrderedIntervalList` per indexed (shard-key) field.
`size()` is the number of fields. -/
structure IndexBounds where
  fields : List OIL
deriving DecidableEq

def IndexBounds.size (b : IndexBounds) : Nat := b.fields.length

/-- Modelled from the spec: `IndexBoundsBuilder::allValuesBounds` (the
builder lives outside this repository's sources) — "return the all-values
(unbounded) interval for the whole key range": one `[MinKey, MaxKey]`
interval per shard-key field. -/
def allValuesBounds (numFields : Nat) : IndexBounds :=
  ⟨List.replicate numFields ⟨[(BElem.minKey, BElem.maxKey)]⟩⟩

/-- Sorted insertion of an interval by its low endpoint (then high). -/
def insertInterval (i : Key × Key) :
    List (Key × Key) → List (Key × Key)
  | [] => [i]
  | j :: rest =>
    if i.1 < j.1 ∨ (i.1 = j.1 ∧ i.2 ≤ j.2) then i :: j :: rest
    else j :: insertInterval i rest

/-- Insertion sort of an interval list by low endpoint. -/
def sortIntervals : List (Key × Key) → List (Key × Key)
  | [] => []
  | i :: rest => insertInterval i (sortIntervals rest)

/-- Merge a sorted interval list: adjacent/overlapping intervals coalesce. -/
def mergeIntervals : List (Key × Key) → List (Key × Key)
  | [] => []
  | [i] => [i]
  | i :: j :: rest =>
    if j.1 ≤ i.2 then mergeIntervals ((i.1, max i.2 j.2) :: rest)
    else i :: mergeIntervals (j :: rest)
  termination_by l => l.length

/-- Modelled from the spec: `IndexBoundsBuilder::unionize` (outside this
repository's sources) — "union-normalize each field's interval list (merge
overlapping/adjacent intervals, sort ascending)". -/
def unionize (o : OIL) : OIL := ⟨mergeIntervals (sortIntervals o.intervals)⟩

/-- The `QuerySolutionNode` stage kinds `collapseQuerySolution` dispatches on.
`fetchStage` stands for any single-child wrapper; `otherStage` for any stage
that is neither `STAGE_OR` nor `STAGE_SORT_MERGE`. -/
inductive StageKind where
  | orStage
  | sortMergeStage
  | fetchStage
  | otherStage
deriving DecidableEq

/-- A query solution tree: an `IXSCAN` leaf carrying its index bounds, or an
internal stage with children. -/
inductive PlanNode where
  | ixscan : IndexBounds → PlanNode
  | internal : StageKind → List PlanNode → PlanNode

mutual
/-- `ChunkManagerWithLock::collapseQuerySolution`.  A childless node must be
an `IXSCAN` (fatal `invariant` otherwise, modelled as `.error ()`); a
single-child node passes through; a multi-child node that is neither OR nor
SORT_MERGE yields empty `IndexBounds()` (the production fallback — not an
error); OR / SORT_MERGE combine their children's bounds. -/
def collapseQuerySolution : PlanNode → Except Unit IndexBounds
  | .ixscan b => .ok b
  | .internal _ [] => .error ()
  | .internal _ [c] => collapseQuerySolution c
  | .internal ty (c0 :: c1 :: rest) =>
    if ty ≠ .orStage ∧ ty ≠ .sortMergeStage then .ok ⟨[]⟩
    else
      match collapseQuerySolution c0 with
      | .error e => .error e
      | .ok b0 =>
        if b0.size = 0 then .ok ⟨[]⟩
        else collapseOrBranches b0 (c1 :: rest)

/-- The tail of the OR / SORT_MERGE loop of `collapseQuerySolution`: for each
further child, an empty child bound aborts to empty bounds; a field-count
mismatch is a fatal `invariant`; otherwise the children's per-field interval
lists are concatenated, and after the last child each field is unionized. -/
def collapseOrBranches : IndexBounds → List PlanNode → Except Unit IndexBounds
  | b, [] => .ok ⟨b.fields.map unionize⟩
  | b, c :: rest =>
    match collapseQuerySolution c with
    | .error e => .error e
    | .ok cb =>
      if cb.size = 0 then .ok ⟨[]⟩
      else if cb.size ≠ b.size then .error ()
      else
        collapseOrBranches
          ⟨(b.fields.zip cb.fields).map
            (fun p => ⟨p.1.intervals ++ p.2.intervals⟩)⟩ rest
end

/-- The solution loop of `getIndexBoundsForQuery`: try each candidate plan in
turn while the bounds are still empty. -/
def collapseLoop : List PlanNode → IndexBounds → Except Unit IndexBounds
  | [], b => .ok b
  | s :: rest, b =>
    if b.size = 0 then
      match collapseQuerySolution s with
      | .error e => .error e
      | .ok b' => collapseLoop rest b'
    else .ok b

/-- `ChunkManagerWithLock::getIndexBoundsForQuery`, taking the externally
computed facts as inputs: `hasTextNode` models
`QueryPlannerCommon::hasNode(root, TEXT)` and `solutions` models the list of
candidate plans returned by `QueryPlanner::plan`.  A `$text` query or a
failure of every candidate plan to produce bounds yields the all-values
bounds. -/
def getIndexBoundsForQuery (numFields : Nat) (hasTextNode : Bool)
    (solutions : List PlanNode) : Except Unit IndexBounds :=
  if hasTextNode then .ok (allValuesBounds numFields)
  else
    match collapseLoop solutions ⟨[]⟩ with
    | .error e => .error e
    | .ok b => if b.size = 0 then .ok (allValuesBounds numFields) else .ok b

mutual
/-- Well-formedness of a candidate plan tree relative to the shard key's
field count `n`: internal nodes have at least one child, and every `IXSCAN`
leaf carries bounds with exactly `n` fields (every candidate scans the single
`n`-field shard-key index). -/
def wfNode (n : Nat) : PlanNode → Bool
  | .ixscan b => decide (b.size = n)
  | .internal _ [] => false
  | .internal _ (c :: cs) => wfNode n c && wfList n cs

/-- `wfNode` over a list of children. -/
def wfList (n : Nat) : List PlanNode → Bool
  | [] => true
  | c :: cs => wfNode n c && wfList n cs
end

mutual
/-- The tree contains a multi-child node that is neither OR nor
SORT_MERGE — the "unexpected shape" `collapseQuerySolution` recovers from. -/
def hasUnexpected : PlanNode → Bool
  | .ixscan _ => false
  | .internal ty cs =>
    (decide (2 ≤ cs.length) && decide (ty ≠ .orStage) &&
      decide (ty ≠ .sortMergeStage)) || hasUnexpectedList cs

/-- `hasUnexpected` over a list of children. -/
def hasUnexpectedList : List PlanNode → Bool
  | [] => false
  | c :: cs => hasUnexpected c || hasUnexpectedList cs
end

/-! ### Concrete fixtures used by witnesses and counterexamples -/

/-- A well-formed one-field `IXSCAN` leaf. -/
def exLeaf : PlanNode := PlanNode.ixscan ⟨[⟨[(BElem.val 1, BElem.val 2)]⟩]⟩

/-- A two-child node of an unexpected stage kind. -/
def exUnexpectedNode : PlanNode := PlanNode.internal .fetchStage [exLeaf, exLeaf]

/-- A version `1|0` in epoch 7. -/
def exVersion : ChunkVersion := ⟨1, 0, 7⟩

/-- `[MinKey, 10) → shard 0`. -/
def exChunkLow : Chunk := ⟨.minKey, .val 10, 0, exVersion⟩

/-- `[10, MaxKey) → shard 1`. -/
def exChunkHigh : Chunk := ⟨.val 10, .maxKey, 1, exVersion⟩

/-- A valid two-chunk table covering the whole key space. -/
def exMap : ChunkMap := [(.val 10, exChunkLow), (.maxKey, exChunkHigh)]

/-- A consistent manager over `exMap`. -/
def exMgr : ChunkManagerWithLock :=
  ⟨1, exMap, [(0, exVersion), (1, exVersion)], 2, exVersion⟩

/-- First half of a split of `exChunkHigh`: `[10, 15) → shard 1`, `2|0`. -/
def exSplitA : Chunk := ⟨.val 10, .val 15, 1, ⟨2, 0, 7⟩⟩

/-- Second half of the split: `[15, MaxKey) → shard 2`, `2|1`. -/
def exSplitB : Chunk := ⟨.val 15, .maxKey, 2, ⟨2, 1, 7⟩⟩

/-- A chunk carrying a foreign epoch (9 instead of 7). -/
def exBadEpoch : Chunk := ⟨.val 15, .maxKey, 2, ⟨2, 1, 9⟩⟩

/-- A manager with no chunks at all (and hence an empty shard version map). -/
def exMgrEmpty : ChunkManagerWithLock := ⟨1, [], [], 0, ⟨0, 0, 7⟩⟩

/-! ### Helper lemmas -/

lemma BElem.minKey_le (k : Key) : BElem.minKey ≤ k := by
  cases k <;> rfl

lemma BElem.le_maxKey (k : Key) : k ≤ BElem.maxKey := by
  cases k <;> rfl

lemma cvEqOp_refl (v : ChunkVersion) : cvEqOp v v = true := by
  simp [cvEqOp]

/-- The in-place loop reports an error exactly when the copy-on-write loop
does (validation looks only at the running version and the chunk, never at
the table). -/
lemma updateChunksMapLoop_error_iff_applyChunks :
    ∀ (changed : List Chunk) (cv : ChunkVersion)
      (mgr : ChunkManagerWithLock) (m : ChunkMap) (e : CMError),
      ((updateChunksMapLoop cv mgr changed).2.2 = some e ↔
        applyChunks cv m changed = .error e) := by
  intro changed
  induction changed with
  | nil => intro cv mgr m e; simp [updateChunksMapLoop, applyChunks]
  | cons c rest ih =>
    intro cv mgr m e
    by_cases h1 : cv.epoch ≠ c.version.epoch
    · simp [updateChunksMapLoop, applyChunks, h1]
    · by_cases h2 : ¬ cvGE c.version cv
      · simp [updateChunksMapLoop, applyChunks, h1, h2]
      · simp only [updateChunksMapLoop, applyChunks, h1, if_false, h2]
        exact ih _ _ _ _

/-- The in-place loop never touches the sequence number, the stored collection
version, or the cached shard version map size. -/
lemma updateChunksMapLoop_frame :
    ∀ (changed : List Chunk) (cv : ChunkVersion)
      (mgr : ChunkManagerWithLock),
      (updateChunksMapLoop cv mgr changed).1.sequenceNumber =
          mgr.sequenceNumber ∧
      (updateChunksMapLoop cv mgr changed).1.collectionVersion =
          mgr.collectionVersion ∧
      (updateChunksMapLoop cv mgr changed).1.shardVersionSize =
          mgr.shardVersionSize := by
  intro changed
  induction changed with
  | nil => intro cv mgr; simp [updateChunksMapLoop]
  | cons c rest ih =>
    intro cv mgr
    by_cases h1 : cv.epoch ≠ c.version.epoch
    · simp [updateChunksMapLoop, h1]
    · by_cases h2 : ¬ cvGE c.version cv
      · simp [updateChunksMapLoop, h1, h2]
      · simp only [updateChunksMapLoop, h1, if_false, h2]
        exact ih _ _

/-! ### C4 — `makeUpdated` identity on no-op diffs -/

/-- C4: `makeUpdated` is an identity with respect to no-op diffs: applying an
empty diff list returns the same manager instance and counter, and whenever a
diff list is applied successfully and the resulting collection version equals
the manager's current collection version, the very same manager instance is
returned with the sequence counter untouched. -/
theorem c4_makeUpdated_noop_identity :
    (∀ (mgr : ChunkManagerWithLock) (counter : Nat),
        makeUpdated mgr counter [] = .ok (mgr, counter)) ∧
    (∀ (mgr : ChunkManagerWithLock) (counter : Nat) (changed : List Chunk)
        (m' : ChunkManagerWithLock) (c' : Nat),
        makeUpdated mgr counter changed = .ok (m', c') →
        cvEqOp m'.collectionVersion mgr.collectionVersion = true →
        m' = mgr ∧ c' = counter) := by
  constructor
  · intro mgr counter
    simp [makeUpdated, applyChunks, cvEqOp_refl]
  · intro mgr counter changed m' c' h hv
    unfold makeUpdated at h
    cases happ : applyChunks mgr.collectionVersion mgr.chunkMap changed with
    | error e => rw [happ] at h; exact absurd h (by simp)
    | ok p =>
      obtain ⟨cm, cv⟩ := p
      rw [happ] at h
      simp only at h
      by_cases hc : cvEqOp cv mgr.collectionVersion = true
      · rw [if_pos hc] at h
        have := Except.ok.inj h
        exact ⟨(congrArg Prod.fst this).symm, (congrArg Prod.snd this).symm⟩
      · rw [if_neg hc] at h
        unfold mkChunkManager at h
        cases hsvm : constructShardVersionMap cv.epoch cm with
        | error e => rw [hsvm] at h; exact absurd h (by simp)
        | ok svm =>
          rw [hsvm] at h
          simp only [Except.ok.injEq, Prod.mk.injEq] at h
          have hm' : m'.collectionVersion = cv := by
            rw [← h.1]
          rw [hm'] at hv
          exact absurd hv hc

/-- Witness for C4: a non-empty diff whose chunk carries the current
collection version applies successfully, leaves the collection version where
it was, and `makeUpdated` hands back the identical manager and counter. -/
theorem c4_makeUpdated_noop_identity_witness :
    makeUpdated exMgr 5 [⟨BElem.val 10, BElem.maxKey, 1, exVersion⟩] =
        Except.ok (exMgr, 5) ∧ (exMgr = exMgr ∧ (5 : Nat) = 5) :=
  ⟨by decide,
   c4_makeUpdated_noop_identity.2 exMgr 5
     [⟨BElem.val 10, BElem.maxKey, 1, exVersion⟩] exMgr 5
     (by decide) (by decide)⟩

/-! ### C2 — failure behaviour of a bad diff batch -/

/-- C2 (amended): when a batch fails validation (`EpochMismatch` /
`VersionOrderViolation`), `makeUpdated` — being copy-on-write — fails with
that error and applies nothing, and `UpdateChunksMap` fails with the same
error leaving the collection version, sequence number, cached shard count and
the counter unchanged; however chunks of the batch processed before the
invalid one remain applied to the live chunk map and shard version index (no
atomic rollback of the in-place path). -/
theorem c2_invalid_batch_behaviour :
    ∀ (mgr : ChunkManagerWithLock) (counter : Nat) (changed : List Chunk)
      (e : CMError),
      (UpdateChunksMap mgr counter changed).2.2 = some e →
      (UpdateChunksMap mgr counter changed).1.collectionVersion =
          mgr.collectionVersion ∧
      (UpdateChunksMap mgr counter changed).1.sequenceNumber =
          mgr.sequenceNumber ∧
      (UpdateChunksMap mgr counter changed).1.shardVersionSize =
          mgr.shardVersionSize ∧
      (UpdateChunksMap mgr counter changed).2.1 = counter ∧
      makeUpdated mgr counter changed = .error e := by
  intro mgr counter changed e h
  have hf := updateChunksMapLoop_frame changed mgr.collectionVersion mgr
  have hiff := updateChunksMapLoop_error_iff_applyChunks changed
    mgr.collectionVersion mgr mgr.chunkMap e
  rcases hL : updateChunksMapLoop mgr.collectionVersion mgr changed with
    ⟨mgr1, cv1, err⟩
  rw [hL] at hf hiff
  cases err with
  | none =>
    have hU : UpdateChunksMap mgr counter changed =
        (if cvEqOp mgr1.collectionVersion cv1 then
          ({ mgr1 with shardVersionSize := mgr1.shardVersions.length,
                       collectionVersion := cv1 }, counter, none)
        else
          ({ mgr1 with shardVersionSize := mgr1.shardVersions.length,
                       collectionVersion := cv1,
                       sequenceNumber := nextSeq counter },
            nextSeq counter, none)) := by
      simp only [UpdateChunksMap, hL]
    rw [hU] at h
    by_cases hc : cvEqOp mgr1.collectionVersion cv1 = true
    · rw [if_pos hc] at h; exact absurd h (by simp)
    · rw [if_neg hc] at h; exact absurd h (by simp)
  | some e' =>
    have hU : UpdateChunksMap mgr counter changed = (mgr1, counter, some e') := by
      simp only [UpdateChunksMap, hL]
    rw [hU] at h
    have he : e' = e := Option.some.inj h
    have happ : applyChunks mgr.collectionVersion mgr.chunkMap changed =
        .error e := hiff.mp (by rw [he])
    rw [hU]
    refine ⟨hf.2.1, hf.1, hf.2.2, rfl, ?_⟩
    unfold makeUpdated
    rw [happ]

/-- Witness for C2 (amended): the batch `[exSplitA, exBadEpoch]` fails with
`EpochMismatch` on its second chunk; version, sequence number, cached shard
count and counter are untouched, and `makeUpdated` rejects the same batch. -/
theorem c2_invalid_batch_behaviour_witness :
    (UpdateChunksMap exMgr 5 [exSplitA, exBadEpoch]).2.2 =
        some CMError.epochMismatch ∧
    ((UpdateChunksMap exMgr 5 [exSplitA, exBadEpoch]).1.collectionVersion =
        exMgr.collectionVersion ∧
      (UpdateChunksMap exMgr 5 [exSplitA, exBadEpoch]).1.sequenceNumber =
        exMgr.sequenceNumber ∧
      (UpdateChunksMap exMgr 5 [exSplitA, exBadEpoch]).1.shardVersionSize =
        exMgr.shardVersionSize ∧
      (UpdateChunksMap exMgr 5 [exSplitA, exBadEpoch]).2.1 = 5 ∧
      makeUpdated exMgr 5 [exSplitA, exBadEpoch] =
        .error CMError.epochMismatch) :=
  ⟨by decide,
   c2_invalid_batch_behaviour exMgr 5 [exSplitA, exBadEpoch]
     CMError.epochMismatch (by decide)⟩

/-- Counterexample to C2 as stated: the batch `[exSplitA, exBadEpoch]` fails
with `EpochMismatch`, yet the in-place patch has already applied `exSplitA`:
the chunk map (and the shard version index) of the manager changed, so the
abort is not atomic. -/
theorem c2_counterexample :
    (UpdateChunksMap exMgr 5 [exSplitA, exBadEpoch]).2.2 =
        some CMError.epochMismatch ∧
    (UpdateChunksMap exMgr 5 [exSplitA, exBadEpoch]).1.chunkMap ≠
        exMgr.chunkMap ∧
    (UpdateChunksMap exMgr 5 [exSplitA, exBadEpoch]).1.shardVersions ≠
        exMgr.shardVersions := by
  decide

/-! ### C8 — sequence number bumps iff the collection version changes -/

/-- C8: on a successful in-place batch, the collection version is set to the
running value computed by the loop; the sequence number changes exactly when
that value differs from the collection version before the batch (in which
case it is drawn fresh from the counter and is strictly larger than the old
sequence number), and is untouched otherwise — as is the counter. -/
theorem c8_updateChunksMap_seq_bump :
    ∀ (mgr : ChunkManagerWithLock) (counter : Nat) (changed : List Chunk),
      mgr.sequenceNumber ≤ counter →
      counter + 1 < 4294967296 →
      (UpdateChunksMap mgr counter changed).2.2 = none →
      (UpdateChunksMap mgr counter changed).1.collectionVersion =
          (updateChunksMapLoop mgr.collectionVersion mgr changed).2.1 ∧
      (((UpdateChunksMap mgr counter changed).1.sequenceNumber ≠
            mgr.sequenceNumber) ↔
        cvEqOp mgr.collectionVersion
          (updateChunksMapLoop mgr.collectionVersion mgr changed).2.1 =
            false) ∧
      (cvEqOp mgr.collectionVersion
          (updateChunksMapLoop mgr.collectionVersion mgr changed).2.1 =
            false →
        mgr.sequenceNumber <
            (UpdateChunksMap mgr counter changed).1.sequenceNumber ∧
        (UpdateChunksMap mgr counter changed).2.1 = counter + 1) ∧
      (cvEqOp mgr.collectionVersion
          (updateChunksMapLoop mgr.collectionVersion mgr changed).2.1 =
            true →
        (UpdateChunksMap mgr counter changed).1.sequenceNumber =
            mgr.sequenceNumber ∧
        (UpdateChunksMap mgr counter changed).2.1 = counter) := by
  intro mgr counter changed hseq hlt hok
  have hf := updateChunksMapLoop_frame changed mgr.collectionVersion mgr
  have hnext : nextSeq counter = counter + 1 := Nat.mod_eq_of_lt hlt
  rcases hL : updateChunksMapLoop mgr.collectionVersion mgr changed with
    ⟨mgr1, cv1, err⟩
  rw [hL] at hf
  have hf1 : mgr1.sequenceNumber = mgr.sequenceNumber := hf.1
  have hf2 : mgr1.collectionVersion = mgr.collectionVersion := hf.2.1
  cases err with
  | some e =>
    have hU : UpdateChunksMap mgr counter changed = (mgr1, counter, some e) := by
      simp only [UpdateChunksMap, hL]
    rw [hU] at hok
    exact absurd hok (by simp)
  | none =>
    have hU : UpdateChunksMap mgr counter changed =
        (if cvEqOp mgr1.collectionVersion cv1 then
          ({ mgr1 with shardVersionSize := mgr1.shardVersions.length,
                       collectionVersion := cv1 }, counter, none)
        else
          ({ mgr1 with shardVersionSize := mgr1.shardVersions.length,
                       collectionVersion := cv1,
                       sequenceNumber := nextSeq counter },
            nextSeq counter, none)) := by
      simp only [UpdateChunksMap, hL]
    rw [hU]
    by_cases hc : cvEqOp mgr1.collectionVersion cv1 = true
    · rw [if_pos hc]
      have hc' : cvEqOp mgr.collectionVersion cv1 = true := by
        rw [← hf2]; exact hc
      refine ⟨rfl, ?_, ?_, ?_⟩
      · show (mgr1.sequenceNumber ≠ mgr.sequenceNumber) ↔
          cvEqOp mgr.collectionVersion cv1 = false
        rw [hc', hf1]
        simp
      · intro hfalse; rw [hc'] at hfalse; exact absurd hfalse (by simp)
      · intro _; exact ⟨hf1, rfl⟩
    · rw [if_neg hc]
      have hc' : cvEqOp mgr.collectionVersion cv1 = false := by
        rw [← hf2]
        cases hx : cvEqOp mgr1.collectionVersion cv1
        · rfl
        · exact absurd hx hc
      refine ⟨rfl, ?_, ?_, ?_⟩
      · show (nextSeq counter ≠ mgr.sequenceNumber) ↔
          cvEqOp mgr.collectionVersion cv1 = false
        rw [hc', hnext]
        simp only [iff_true, ne_eq]
        omega
      · intro _
        show mgr.sequenceNumber < nextSeq counter ∧ nextSeq counter = counter + 1
        rw [hnext]
        exact ⟨Nat.lt_succ_of_le hseq, rfl⟩
      · intro htrue; rw [htrue] at hc'; exact absurd hc' (by simp)

/-- Witness for C8: the split batch `[exSplitA, exSplitB]` advances the
collection version to `2|1`, so the sequence number is bumped from the
counter (5 → 6) and the stored version is the running value. -/
theorem c8_updateChunksMap_seq_bump_witness :
    exMgr.sequenceNumber ≤ 5 ∧ (5 : Nat) + 1 < 4294967296 ∧
    (UpdateChunksMap exMgr 5 [exSplitA, exSplitB]).2.2 = none ∧
    ((UpdateChunksMap exMgr 5 [exSplitA, exSplitB]).1.collectionVersion =
        (updateChunksMapLoop exMgr.collectionVersion exMgr
          [exSplitA, exSplitB]).2.1 ∧
      (((UpdateChunksMap exMgr 5 [exSplitA, exSplitB]).1.sequenceNumber ≠
            exMgr.sequenceNumber) ↔
        cvEqOp exMgr.collectionVersion
          (updateChunksMapLoop exMgr.collectionVersion exMgr
            [exSplitA, exSplitB]).2.1 = false) ∧
      (cvEqOp exMgr.collectionVersion
          (updateChunksMapLoop exMgr.collectionVersion exMgr
            [exSplitA, exSplitB]).2.1 = false →
        exMgr.sequenceNumber <
            (UpdateChunksMap exMgr 5 [exSplitA, exSplitB]).1.sequenceNumber ∧
        (UpdateChunksMap exMgr 5 [exSplitA, exSplitB]).2.1 = 5 + 1) ∧
      (cvEqOp exMgr.collectionVersion
          (updateChunksMapLoop exMgr.collectionVersion exMgr
            [exSplitA, exSplitB]).2.1 = true →
        (UpdateChunksMap exMgr 5 [exSplitA, exSplitB]).1.sequenceNumber =
            exMgr.sequenceNumber ∧
        (UpdateChunksMap exMgr 5 [exSplitA, exSplitB]).2.1 = 5)) :=
  ⟨by decide, by decide, by decide,
   c8_updateChunksMap_seq_bump exMgr 5 [exSplitA, exSplitB]
     (by decide) (by decide) (by decide)⟩

/-! ### C6 / C10 — the at-least-one-shard fallback -/

lemma chunksInRange_nil (mn mx : Key) (inc : Bool) :
    chunksInRange [] mn mx inc = [] := by
  cases inc <;> rfl

lemma rangesLoop_of_empty_map (mgr : ChunkManagerWithLock)
    (hm : mgr.chunkMap = []) :
    ∀ (ranges : List (Key × Key)) (acc : List Nat),
      rangesLoop mgr ranges acc = acc := by
  intro ranges
  induction ranges with
  | nil => intro acc; rfl
  | cons r rest ih =>
    intro acc
    have hr : getShardIdsForRange mgr r.1 r.2 acc = acc := by
      unfold getShardIdsForRange
      rw [hm, chunksInRange_nil]
      rfl
    unfold rangesLoop
    rw [hr]
    by_cases hb : acc.length = mgr.shardVersionSize
    · rw [if_pos hb]
    · rw [if_neg hb]
      exact ih acc

lemma setInsert_ne_nil (acc : List Nat) (x : Nat) : setInsert acc x ≠ [] := by
  cases acc with
  | nil => simp [setInsert]
  | cons y rest =>
    unfold setInsert
    by_cases h1 : x < y
    · simp [h1]
    · rw [if_neg h1]
      by_cases h2 : x = y
      · simp [h2]
      · simp [h2]

/-- C10: the scatter fallback of `getShardIdsForQuery` is only safe when the
shard version index is non-empty.  A manager with no chunks (empty table,
empty shard version map) accumulates no shard from any range, and the
fallback dereferences `begin()` of the empty `_shardVersions` map — modelled
by the `none` result — so the at-least-one-shard guarantee fails there.
Conversely, whenever at least one shard owns a chunk entry the result is
defined (`isSome`). -/
theorem c10_fallback_requires_nonempty_shardVersions :
    (∀ (mgr : ChunkManagerWithLock) (ranges : List (Key × Key)),
        mgr.chunkMap = [] → mgr.shardVersions = [] →
        getShardIdsForQueryFromRanges mgr ranges = none) ∧
    (∀ (mgr : ChunkManagerWithLock) (ranges : List (Key × Key)),
        mgr.shardVersions ≠ [] →
        (getShardIdsForQueryFromRanges mgr ranges).isSome = true) := by
  constructor
  · intro mgr ranges hm hsv
    unfold getShardIdsForQueryFromRanges
    rw [rangesLoop_of_empty_map mgr hm ranges [], hsv]
    rfl
  · intro mgr ranges hsv
    unfold getShardIdsForQueryFromRanges
    by_cases hacc : (rangesLoop mgr ranges []).isEmpty = true
    · rw [if_pos hacc]
      cases hh : mgr.shardVersions.head? with
      | none => exact absurd (List.head?_eq_none_iff.mp hh) hsv
      | some e => rfl
    · rw [if_neg hacc]
      rfl

/-- Witness for C10: the manager with no chunks yields the undefined (`none`)
fallback for a full-range query, while a manager owning chunks yields a
defined result. -/
theorem c10_fallback_requires_nonempty_shardVersions_witness :
    (exMgrEmpty.chunkMap = [] ∧ exMgrEmpty.shardVersions = [] ∧
      getShardIdsForQueryFromRanges exMgrEmpty
        [(BElem.minKey, BElem.maxKey)] = none) ∧
    (exMgr.shardVersions ≠ [] ∧
      (getShardIdsForQueryFromRanges exMgr
        [(BElem.minKey, BElem.maxKey)]).isSome = true) :=
  ⟨⟨by decide, by decide,
    c10_fallback_requires_nonempty_shardVersions.1 exMgrEmpty
      [(BElem.minKey, BElem.maxKey)] (by decide) (by decide)⟩,
   ⟨by decide,
    c10_fallback_requires_nonempty_shardVersions.2 exMgr
      [(BElem.minKey, BElem.maxKey)] (by decide)⟩⟩

/-- C6 (amended): for every query against a manager whose shard version index
is non-empty (at least one shard owns a chunk), `getShardIdsForQuery` returns
a non-empty shard set: if the accumulated set is empty after all ranges, one
arbitrary shard — the first entry of the shard version index — is inserted
rather than returning an empty target set.  For a manager with no chunks the
fallback dereferences the begin iterator of the empty shard version map and
no shard set is produced at all. -/
theorem c6_nonempty_shard_set :
    ∀ (mgr : ChunkManagerWithLock) (ranges : List (Key × Key)),
      mgr.shardVersions ≠ [] →
      ∃ s, getShardIdsForQueryFromRanges mgr ranges = some s ∧ s ≠ [] := by
  intro mgr ranges hsv
  unfold getShardIdsForQueryFromRanges
  by_cases hacc : (rangesLoop mgr ranges []).isEmpty = true
  · rw [if_pos hacc]
    cases hh : mgr.shardVersions.head? with
    | none => exact absurd (List.head?_eq_none_iff.mp hh) hsv
    | some e =>
      exact ⟨setInsert (rangesLoop mgr ranges []) e.1, rfl,
        setInsert_ne_nil _ _⟩
  · rw [if_neg hacc]
    refine ⟨rangesLoop mgr ranges [], rfl, ?_⟩
    intro hnil
    rw [hnil] at hacc
    exact hacc rfl

/-- Witness for C6 (amended): a query whose predicate produced no ranges at
all (no predicate on the shard key is representable) still receives a
non-empty shard set from `exMgr` via the scatter fallback. -/
theorem c6_nonempty_shard_set_witness :
    exMgr.shardVersions ≠ [] ∧
    (∃ s, getShardIdsForQueryFromRanges exMgr [] = some s ∧ s ≠ []) :=
  ⟨by decide, c6_nonempty_shard_set exMgr [] (by decide)⟩

/-- Counterexample to C6 as stated: for the (chunkless) manager
`exMgrEmpty`, the full-range query yields no shard set at all — the fallback
dereferences `begin()` of the empty shard version map instead of producing a
non-empty set. -/
theorem c6_counterexample :
    getShardIdsForQueryFromRanges exMgrEmpty
      [(BElem.minKey, BElem.maxKey)] = none := by
  decide

/-! ### C9 — all-values fallback of the query-to-range translator -/

/-- On a well-formed plan tree, `collapseQuerySolution` never throws: it
returns either bounds of the full field count or the empty `IndexBounds()`,
and it returns the empty bounds whenever the tree contains an unexpected
multi-child node. -/
lemma collapse_wf (n : Nat) (hn : 0 < n) :
    ∀ t : PlanNode, wfNode n t = true →
      ((collapseQuerySolution t = .ok ⟨[]⟩ ∨
         ∃ b, collapseQuerySolution t = .ok b ∧ b.size = n) ∧
       (hasUnexpected t = true → collapseQuerySolution t = .ok ⟨[]⟩)) := by
  refine collapseQuerySolution.induct
    (fun t => wfNode n t = true →
      ((collapseQuerySolution t = .ok ⟨[]⟩ ∨
         ∃ b, collapseQuerySolution t = .ok b ∧ b.size = n) ∧
       (hasUnexpected t = true → collapseQuerySolution t = .ok ⟨[]⟩)))
    (fun b l => b.size = n → wfList n l = true →
      ((collapseOrBranches b l = .ok ⟨[]⟩ ∨
         ∃ b', collapseOrBranches b l = .ok b' ∧ b'.size = n) ∧
       (hasUnexpectedList l = true → collapseOrBranches b l = .ok ⟨[]⟩)))
    ?_ ?_ ?_ ?_ ?_ ?_ ?_ ?_ ?_ ?_ ?_ ?_
  · -- IXSCAN leaf
    intro b hwf
    refine ⟨Or.inr ⟨b, by simp [collapseQuerySolution], ?_⟩, ?_⟩
    · simpa [wfNode] using hwf
    · intro hu; simp [hasUnexpected] at hu
  · -- childless internal node: excluded by well-formedness
    intro a hwf
    simp [wfNode] at hwf
  · -- single-child pass-through
    intro a c ihc hwf
    have hwfc : wfNode n c = true := by
      have := hwf
      simp [wfNode, wfList] at this
      exact this
    have h := ihc hwfc
    have hcol : collapseQuerySolution (.internal a [c]) =
        collapseQuerySolution c := by
      simp [collapseQuerySolution]
    refine ⟨by rw [hcol]; exact h.1, ?_⟩
    intro hu
    rw [hcol]
    apply h.2
    simpa [hasUnexpected, hasUnexpectedList] using hu
  · -- unexpected multi-child shape: local fallback to empty bounds
    intro ty c0 c1 rest hty hwf
    have hcol : collapseQuerySolution (.internal ty (c0 :: c1 :: rest)) =
        .ok ⟨[]⟩ := by
      simp only [collapseQuerySolution]
      rw [if_pos hty]
    exact ⟨Or.inl hcol, fun _ => hcol⟩
  · -- OR/SORT_MERGE whose first child throws: excluded by well-formedness
    intro ty c0 c1 rest hty e herr ih hwf
    simp only [wfNode, wfList, Bool.and_eq_true] at hwf
    rcases (ih hwf.1).1 with h | ⟨b, hb, _⟩
    · rw [herr] at h; exact absurd h (by simp)
    · rw [herr] at hb; exact absurd hb (by simp)
  · -- OR/SORT_MERGE whose first child yields empty bounds
    intro ty c0 c1 rest hty b0 hok hsz ih hwf
    have hcol : collapseQuerySolution (.internal ty (c0 :: c1 :: rest)) =
        .ok ⟨[]⟩ := by
      simp only [collapseQuerySolution, hok]
      rw [if_neg hty, if_pos hsz]
    exact ⟨Or.inl hcol, fun _ => hcol⟩
  · -- OR/SORT_MERGE with a non-empty first child: combine the branches
    intro ty c0 c1 rest hty b0 hok hsz ih0 ihl hwf
    simp only [wfNode, wfList, Bool.and_eq_true] at hwf
    obtain ⟨hw0, hw1, hwr⟩ := hwf
    have hb0 : b0.size = n := by
      rcases (ih0 hw0).1 with h | ⟨b, hb, hs⟩
      · rw [hok] at h
        have hb := Except.ok.inj h
        exact absurd (by rw [hb]; rfl) hsz
      · rw [hok] at hb
        rw [show b0 = b from Except.ok.inj hb]
        exact hs
    have hcol : collapseQuerySolution (.internal ty (c0 :: c1 :: rest)) =
        collapseOrBranches b0 (c1 :: rest) := by
      simp only [collapseQuerySolution, hok]
      rw [if_neg hty, if_neg hsz]
    have hlist := ihl hb0 (by simp [wfList, hw1, hwr])
    refine ⟨by rw [hcol]; exact hlist.1, ?_⟩
    intro hu
    have hfirst : (decide (2 ≤ (c0 :: c1 :: rest).length) &&
        decide (ty ≠ StageKind.orStage) &&
        decide (ty ≠ StageKind.sortMergeStage)) = false := by
      rcases not_and_or.mp hty with h | h
      · simp [not_not.mp h]
      · simp [not_not.mp h]
    have hu' : hasUnexpected c0 = true ∨
        hasUnexpectedList (c1 :: rest) = true := by
      have := hu
      simp only [hasUnexpected, hfirst, Bool.false_or,
        hasUnexpectedList, Bool.or_eq_true] at this
      rcases this with h | h | h
      · exact Or.inl h
      · exact Or.inr (by simp [hasUnexpectedList, h])
      · exact Or.inr (by simp [hasUnexpectedList, h])
    rcases hu' with h | h
    · have hempty := (ih0 hw0).2 h
      rw [hok] at hempty
      have hb := Except.ok.inj hempty
      exact absurd (by rw [hb]; rfl) hsz
    · rw [hcol]
      exact hlist.2 h
  · -- end of the OR loop: unionize every field
    intro b hb hwfl
    refine ⟨Or.inr ⟨⟨b.fields.map unionize⟩, by simp [collapseOrBranches], ?_⟩,
      ?_⟩
    · show (b.fields.map unionize).length = n
      rw [List.length_map]
      exact hb
    · intro hu; simp [hasUnexpectedList] at hu
  · -- a later OR branch throws: excluded by well-formedness
    intro b c rest e herr ih hb hwfl
    simp only [wfList, Bool.and_eq_true] at hwfl
    rcases (ih hwfl.1).1 with h | ⟨b', hb', _⟩
    · rw [herr] at h; exact absurd h (by simp)
    · rw [herr] at hb'; exact absurd hb' (by simp)
  · -- a later OR branch yields empty bounds: whole OR collapses to empty
    intro b c rest b0 hok hsz ih hb hwfl
    have hcol : collapseOrBranches b (c :: rest) = .ok ⟨[]⟩ := by
      simp only [collapseOrBranches, hok]
      rw [if_pos hsz]
    exact ⟨Or.inl hcol, fun _ => hcol⟩
  · -- field count mismatch: excluded by well-formedness
    intro b c rest b0 hok hsz hne ih hb hwfl
    simp only [wfList, Bool.and_eq_true] at hwfl
    have hb0 : b0.size = n := by
      rcases (ih hwfl.1).1 with h | ⟨b', hb', hs⟩
      · rw [hok] at h
        have hbb := Except.ok.inj h
        exact absurd (by rw [hbb]; rfl) hsz
      · rw [hok] at hb'
        rw [show b0 = b' from Except.ok.inj hb']
        exact hs
    exact absurd (by rw [hb0, hb]) hne
  · -- a later OR branch concatenates its field intervals
    intro b c rest b0 hok hsz hnne ih ihl hb hwfl
    simp only [wfList, Bool.and_eq_true] at hwfl
    obtain ⟨hwc, hwr⟩ := hwfl
    have hb0 : b0.size = n := by
      rcases (ih hwc).1 with h | ⟨b', hb', hs⟩
      · rw [hok] at h
        have hbb := Except.ok.inj h
        exact absurd (by rw [hbb]; rfl) hsz
      · rw [hok] at hb'
        rw [show b0 = b' from Except.ok.inj hb']
        exact hs
    have hcat : (⟨(b.fields.zip b0.fields).map
        (fun p => ⟨p.1.intervals ++ p.2.intervals⟩)⟩ : IndexBounds).size =
          n := by
      show ((b.fields.zip b0.fields).map _).length = n
      rw [List.length_map, List.length_zip]
      rw [show b.fields.length = n from hb, show b0.fields.length = n from hb0,
        Nat.min_self]
    have hcol : collapseOrBranches b (c :: rest) =
        collapseOrBranches ⟨(b.fields.zip b0.fields).map
          (fun p => ⟨p.1.intervals ++ p.2.intervals⟩)⟩ rest := by
      simp only [collapseOrBranches, hok]
      rw [if_neg hsz, if_neg hnne]
    have hl := ihl hcat hwr
    refine ⟨by rw [hcol]; exact hl.1, ?_⟩
    intro hu
    have hu' : hasUnexpected c = true ∨ hasUnexpectedList rest = true := by
      have := hu
      simp only [hasUnexpectedList, Bool.or_eq_true] at this
      exact this
    rcases hu' with h | h
    · have hempty := (ih hwc).2 h
      rw [hok] at hempty
      have hbb := Except.ok.inj hempty
      exact absurd (by rw [hbb]; rfl) hsz
    · rw [hcol]
      exact hl.2 h

/-- C9: index-bound construction falls back to the all-values interval for
the whole key: a predicate containing a full-text clause yields the
all-values bounds outright; a multi-child node that is neither OR nor
SORT_MERGE collapses locally to the empty `IndexBounds()` — an `ok` result,
never an error propagated to the caller; a well-formed candidate plan
containing such a node therefore produces no bounds, and whenever no
candidate plan produces bounds the translator returns the all-values
bounds. -/
theorem c9_all_values_fallback :
    (∀ (n : Nat) (sols : List PlanNode),
        getIndexBoundsForQuery n true sols = .ok (allValuesBounds n)) ∧
    (∀ (ty : StageKind) (c0 c1 : PlanNode) (rest : List PlanNode),
        ty ≠ .orStage → ty ≠ .sortMergeStage →
        collapseQuerySolution (.internal ty (c0 :: c1 :: rest)) = .ok ⟨[]⟩) ∧
    (∀ (n : Nat) (t : PlanNode), 0 < n → wfNode n t = true →
        hasUnexpected t = true →
        getIndexBoundsForQuery n false [t] = .ok (allValuesBounds n)) ∧
    (∀ (n : Nat) (sols : List PlanNode),
        collapseLoop sols ⟨[]⟩ = .ok ⟨[]⟩ →
        getIndexBoundsForQuery n false sols = .ok (allValuesBounds n)) := by
  have hpart4 : ∀ (n : Nat) (sols : List PlanNode),
      collapseLoop sols ⟨[]⟩ = .ok ⟨[]⟩ →
      getIndexBoundsForQuery n false sols = .ok (allValuesBounds n) := by
    intro n sols h
    simp [getIndexBoundsForQuery, h, IndexBounds.size]
  refine ⟨?_, ?_, ?_, hpart4⟩
  · intro n sols
    simp [getIndexBoundsForQuery]
  · intro ty c0 c1 rest h1 h2
    simp only [collapseQuerySolution]
    rw [if_pos ⟨h1, h2⟩]
  · intro n t hn hwf hu
    have hc : collapseQuerySolution t = .ok ⟨[]⟩ :=
      (collapse_wf n hn t hwf).2 hu
    apply hpart4
    simp [collapseLoop, hc, IndexBounds.size]

/-- Witness for C9: a two-child FETCH-like node is unexpected; collapsing it
recovers locally with empty bounds (no error), and as the sole candidate plan
it drives the translator to the all-values bounds; a batch of candidates that
produce no bounds does the same. -/
theorem c9_all_values_fallback_witness :
    (StageKind.fetchStage ≠ StageKind.orStage ∧
      StageKind.fetchStage ≠ StageKind.sortMergeStage ∧
      collapseQuerySolution (.internal .fetchStage [exLeaf, exLeaf]) =
        .ok ⟨[]⟩) ∧
    ((0 : Nat) < 1 ∧ wfNode 1 exUnexpectedNode = true ∧
      hasUnexpected exUnexpectedNode = true ∧
      getIndexBoundsForQuery 1 false [exUnexpectedNode] =
        .ok (allValuesBounds 1)) :=
  ⟨⟨by decide, by decide,
    c9_all_values_fallback.2.1 .fetchStage exLeaf exLeaf []
      (by decide) (by decide)⟩,
   ⟨by decide, by decide, by decide,
    c9_all_values_fallback.2.2.1 1 exUnexpectedNode
      (by decide) (by decide) (by decide)⟩⟩

/-! ### C3 — point lookup -/

lemma chainFrom_cons (lo : Key) (k1 : Key) (c1 : Chunk) (rest : ChunkMap)
    (h : chainFrom lo ((k1, c1) :: rest) = true) :
    c1.min = lo ∧ k1 = c1.max ∧ lo < c1.max ∧ chainFrom c1.max rest = true := by
  simp only [chainFrom, Bool.and_eq_true, decide_eq_true_eq] at h
  exact ⟨h.1.1.1, h.1.1.2, h.1.2, h.2⟩

lemma chainFrom_min_ge :
    ∀ (m : ChunkMap) (lo : Key), chainFrom lo m = true →
      ∀ e ∈ m, lo ≤ e.2.min := by
  intro m
  induction m with
  | nil => intro lo _ e he; cases he
  | cons hd rest ih =>
    intro lo h e he
    obtain ⟨k1, c1⟩ := hd
    obtain ⟨hmin, hkey, hlt, hrest⟩ := chainFrom_cons lo k1 c1 rest h
    cases he with
    | head => rw [hmin]
    | tail _ hmem =>
      exact le_trans (le_of_lt hlt) (ih c1.max hrest e hmem)

lemma chain_lo_le_lastMax :
    ∀ (m : ChunkMap) (lo : Key) (e1 : Key × Chunk),
      chainFrom lo m = true → m.getLast? = some e1 → lo ≤ e1.2.max := by
  intro m
  induction m with
  | nil => intro lo e1 _ hl; cases hl
  | cons hd rest ih =>
    intro lo e1 h hl
    obtain ⟨k1, c1⟩ := hd
    obtain ⟨hmin, hkey, hlt, hrest⟩ := chainFrom_cons lo k1 c1 rest h
    cases rest with
    | nil =>
      simp only [List.getLast?_singleton, Option.some.injEq] at hl
      rw [← hl]
      exact le_of_lt hlt
    | cons hd2 rest2 =>
      rw [List.getLast?_cons_cons] at hl
      exact le_trans (le_of_lt hlt) (ih c1.max e1 hrest hl)

lemma chain_keys_le_lastMax :
    ∀ (m : ChunkMap) (lo : Key) (e1 : Key × Chunk),
      chainFrom lo m = true → m.getLast? = some e1 →
      ∀ e ∈ m, e.1 ≤ e1.2.max := by
  intro m
  induction m with
  | nil => intro lo e1 _ hl; cases hl
  | cons hd rest ih =>
    intro lo e1 h hl e he
    obtain ⟨k1, c1⟩ := hd
    obtain ⟨hmin, hkey, hlt, hrest⟩ := chainFrom_cons lo k1 c1 rest h
    cases rest with
    | nil =>
      simp only [List.getLast?_singleton, Option.some.injEq] at hl
      cases he with
      | head => rw [← hl, hkey]
      | tail _ hmem => cases hmem
    | cons hd2 rest2 =>
      rw [List.getLast?_cons_cons] at hl
      cases he with
      | head =>
        rw [hkey]
        exact chain_lo_le_lastMax (hd2 :: rest2) c1.max e1 hrest hl
      | tail _ hmem => exact ih c1.max e1 hrest hl e hmem

lemma upperBoundIdx_full :
    ∀ (m : ChunkMap) (k : Key), (∀ e ∈ m, e.1 ≤ k) →
      upperBoundIdx m k = m.length := by
  intro m
  induction m with
  | nil => intro k _; rfl
  | cons hd rest ih =>
    intro k h
    have hhd : hd.1 ≤ k := h hd (List.mem_cons_self hd rest)
    simp only [upperBoundIdx, if_pos hhd, List.length_cons]
    rw [ih k (fun e he => h e (List.mem_cons_of_mem hd he))]

/-- Core of C3 on the chain invariant: a key at or above the chain's lower
boundary and strictly below the last chunk's max is found, is contained in
the found chunk, and no other chunk of the table contains it. -/
lemma findIntersectingChunk_covered :
    ∀ (m : ChunkMap) (lo k : Key) (e1 : Key × Chunk),
      chainFrom lo m = true → lo ≤ k → m.getLast? = some e1 →
      k < e1.2.max →
      ∃ c, findIntersectingChunk m k = .ok c ∧ c.containsKey k = true ∧
        ∀ e ∈ m, e.2.containsKey k = true → e.2 = c := by
  intro m
  induction m with
  | nil => intro lo k e1 _ _ hl _; cases hl
  | cons hd rest ih =>
    intro lo k e1 h hlo hl hk
    obtain ⟨k1, c1⟩ := hd
    obtain ⟨hmin, hkey, hlt, hrest⟩ := chainFrom_cons lo k1 c1 rest h
    by_cases hup : k1 ≤ k
    · -- the head's max is not above k: the lookup continues in the tail
      have hfind : findIntersectingChunk ((k1, c1) :: rest) k =
          findIntersectingChunk rest k := by
        simp only [findIntersectingChunk, upperBoundIdx, if_pos hup,
          List.get?_cons_succ]
      cases rest with
      | nil =>
        simp only [List.getLast?_singleton, Option.some.injEq] at hl
        rw [← hl] at hk
        rw [← hkey] at hk
        exact absurd hup (not_le_of_lt hk)
      | cons hd2 rest2 =>
        rw [List.getLast?_cons_cons] at hl
        have hlo2 : c1.max ≤ k := by rw [← hkey]; exact hup
        obtain ⟨c, hc, hcont, huniq⟩ :=
          ih c1.max k e1 hrest hlo2 hl hk
        refine ⟨c, by rw [hfind]; exact hc, hcont, ?_⟩
        intro e he hecont
        cases he with
        | head =>
          exfalso
          have : c1.max ≤ k := hlo2
          simp only [Chunk.containsKey, Bool.and_eq_true, decide_eq_true_eq]
            at hecont
          exact absurd hecont.2 (not_lt_of_le this)
        | tail _ hmem => exact huniq e hmem hecont
    · -- k is strictly below the head's max: the head chunk is the owner
      have hkk : k < c1.max := by rw [← hkey]; exact lt_of_not_le hup
      have hcont : c1.containsKey k = true := by
        simp only [Chunk.containsKey, Bool.and_eq_true, decide_eq_true_eq]
        exact ⟨hmin ▸ hlo, hkk⟩
      have hfind : findIntersectingChunk ((k1, c1) :: rest) k = .ok c1 := by
        simp only [findIntersectingChunk, upperBoundIdx, if_neg hup,
          List.get?_cons_zero, hcont, if_pos]
      refine ⟨c1, hfind, hcont, ?_⟩
      intro e he hecont
      cases he with
      | head => rfl
      | tail _ hmem =>
        exfalso
        have hge : c1.max ≤ e.2.min := chainFrom_min_ge rest c1.max hrest e hmem
        simp only [Chunk.containsKey, Bool.and_eq_true, decide_eq_true_eq]
          at hecont
        exact absurd (le_trans hge hecont.1) (not_le_of_lt hkk)

/-- C3: with a simple collation and a valid table, for every key inside the
covered space the point lookup finds — as the first entry whose encoded max
key is strictly greater than the encoded key — the unique chunk with
`min <= k < max`; for a key outside the covered space it fails with
`ShardKeyNotFound` (the spec's `KeyNotCovered`). -/
theorem c3_findIntersectingChunk_point_lookup :
    ∀ (m : ChunkMap) (k : Key),
      isValidPartition m = true →
      (coveredKey m k = true →
        ∃ c, findIntersectingChunk m k = .ok c ∧ c.containsKey k = true ∧
          ∀ e ∈ m, e.2.containsKey k = true → e.2 = c) ∧
      (coveredKey m k = false →
        findIntersectingChunk m k = .error .shardKeyNotFound) := by
  intro m k hv
  cases m with
  | nil =>
    exact ⟨fun hc => absurd hc (by simp [coveredKey]), fun _ => rfl⟩
  | cons hd rest =>
    obtain ⟨k1, c1⟩ := hd
    cases hl : ((k1, c1) :: rest).getLast? with
    | none => simp at hl
    | some e1 =>
      have hchain : chainFrom c1.min ((k1, c1) :: rest) = true := by
        simp only [isValidPartition, hl, Bool.and_eq_true] at hv
        exact hv.1.2
      have hcov : coveredKey ((k1, c1) :: rest) k =
          (decide (c1.min ≤ k) && decide (k < e1.2.max)) := by
        simp [coveredKey, hl]
      constructor
      · intro hc
        rw [hcov] at hc
        simp only [Bool.and_eq_true, decide_eq_true_eq] at hc
        exact findIntersectingChunk_covered ((k1, c1) :: rest) c1.min k e1
          hchain hc.1 hl hc.2
      · intro hc
        rw [hcov] at hc
        simp only [Bool.and_eq_true, decide_eq_true_eq, Bool.and_eq_false_iff,
          decide_eq_false_iff_not, not_le, not_lt] at hc
        have hminK : c1.min = BElem.minKey := by
          simp only [isValidPartition, hl, Bool.and_eq_true,
            decide_eq_true_eq] at hv
          exact hv.1.1
        rcases hc with hc | hc
        · exact absurd (hminK ▸ BElem.minKey_le k) (not_le_of_lt hc)
        · -- every key of the table is at most the last max, hence ≤ k
          have hfull : upperBoundIdx ((k1, c1) :: rest) k =
              ((k1, c1) :: rest).length :=
            upperBoundIdx_full _ k (fun e he =>
              le_trans (chain_keys_le_lastMax _ c1.min e1 hchain hl e he) hc)
          simp only [findIntersectingChunk, hfull]
          rw [List.get?_eq_none.mpr (le_refl _)]

/-- Witness for C3: on the valid two-chunk table `exMap`, the key `5` is
covered and resolves uniquely to the `[MinKey, 10)` chunk. -/
theorem c3_findIntersectingChunk_point_lookup_witness :
    isValidPartition exMap = true ∧ coveredKey exMap (BElem.val 5) = true ∧
    (∃ c, findIntersectingChunk exMap (BElem.val 5) = .ok c ∧
      c.containsKey (BElem.val 5) = true ∧
      ∀ e ∈ exMap, e.2.containsKey (BElem.val 5) = true → e.2 = c) :=
  ⟨by decide, by decide,
   (c3_findIntersectingChunk_point_lookup exMap (BElem.val 5) (by decide)).1
     (by decide)⟩

/-! ### C5 — range lookup -/

lemma chainFrom_mem_facts :
    ∀ (m : ChunkMap) (lo : Key), chainFrom lo m = true →
      ∀ e ∈ m, e.1 = e.2.max ∧ e.2.min < e.2.max := by
  intro m
  induction m with
  | nil => intro lo _ e he; cases he
  | cons hd rest ih =>
    intro lo h e he
    obtain ⟨k1, c1⟩ := hd
    obtain ⟨hmin, hkey, hlt, hrest⟩ := chainFrom_cons lo k1 c1 rest h
    cases he with
    | head => exact ⟨hkey, hmin ▸ hlt⟩
    | tail _ hmem => exact ih c1.max hrest e hmem

lemma upperBoundIdx_le_length :
    ∀ (m : ChunkMap) (k : Key), upperBoundIdx m k ≤ m.length := by
  intro m
  induction m with
  | nil => intro k; exact Nat.le_refl 0
  | cons hd rest ih =>
    intro k
    simp only [upperBoundIdx, List.length_cons]
    by_cases hh : hd.1 ≤ k
    · rw [if_pos hh]; exact Nat.succ_le_succ (ih k)
    · rw [if_neg hh]; exact Nat.zero_le _

lemma lowerBoundIdx_le_length :
    ∀ (m : ChunkMap) (k : Key), lowerBoundIdx m k ≤ m.length := by
  intro m
  induction m with
  | nil => intro k; exact Nat.le_refl 0
  | cons hd rest ih =>
    intro k
    simp only [lowerBoundIdx, List.length_cons]
    by_cases hh : hd.1 < k
    · rw [if_pos hh]; exact Nat.succ_le_succ (ih k)
    · rw [if_neg hh]; exact Nat.zero_le _

/-- Index characterisation of `upper_bound` on a chained table: position `i`
is before `upper_bound k` exactly when its key is at most `k`. -/
lemma ub_window :
    ∀ (m : ChunkMap) (lo k : Key), chainFrom lo m = true →
      ∀ (i : Nat) (h : i < m.length),
        (i < upperBoundIdx m k ↔ (m.get ⟨i, h⟩).1 ≤ k) := by
  intro m
  induction m with
  | nil => intro lo k _ i h; cases h
  | cons hd rest ih =>
    intro lo k hch i h
    obtain ⟨k1, c1⟩ := hd
    obtain ⟨hmin, hkey, hlt, hrest⟩ := chainFrom_cons lo k1 c1 rest hch
    by_cases hh : k1 ≤ k
    · simp only [upperBoundIdx, if_pos hh]
      cases i with
      | zero =>
        simp only [List.get]
        exact ⟨fun _ => hh, fun _ => Nat.succ_pos _⟩
      | succ j =>
        have hj : j < rest.length := Nat.lt_of_succ_lt_succ h
        simp only [List.get]
        rw [← ih c1.max k hrest j hj]
        omega
    · simp only [upperBoundIdx, if_neg hh]
      cases i with
      | zero =>
        simp only [List.get]
        exact ⟨fun hc => absurd hc (Nat.not_lt_zero 0), fun hc => absurd hc hh⟩
      | succ j =>
        have hj : j < rest.length := Nat.lt_of_succ_lt_succ h
        simp only [List.get]
        constructor
        · intro hc; exact absurd hc (Nat.not_lt_zero _)
        · intro hc
          exfalso
          have hmem := List.get_mem rest j hj
          have hfacts := chainFrom_mem_facts rest c1.max hrest _ hmem
          have hge := chainFrom_min_ge rest c1.max hrest _ hmem
          have hk1 : k1 < (rest.get ⟨j, hj⟩).1 := by
            rw [hkey, hfacts.1]
            exact lt_of_le_of_lt hge hfacts.2
          exact hh (le_trans (le_of_lt hk1) hc)

/-- Index characterisation of `lower_bound` on a chained table. -/
lemma lb_window :
    ∀ (m : ChunkMap) (lo k : Key), chainFrom lo m = true →
      ∀ (i : Nat) (h : i < m.length),
        (i < lowerBoundIdx m k ↔ (m.get ⟨i, h⟩).1 < k) := by
  intro m
  induction m with
  | nil => intro lo k _ i h; cases h
  | cons hd rest ih =>
    intro lo k hch i h
    obtain ⟨k1, c1⟩ := hd
    obtain ⟨hmin, hkey, hlt, hrest⟩ := chainFrom_cons lo k1 c1 rest hch
    by_cases hh : k1 < k
    · simp only [lowerBoundIdx, if_pos hh]
      cases i with
      | zero =>
        simp only [List.get]
        exact ⟨fun _ => hh, fun _ => Nat.succ_pos _⟩
      | succ j =>
        have hj : j < rest.length := Nat.lt_of_succ_lt_succ h
        simp only [List.get]
        rw [← ih c1.max k hrest j hj]
        omega
    · simp only [lowerBoundIdx, if_neg hh]
      cases i with
      | zero =>
        simp only [List.get]
        exact ⟨fun hc => absurd hc (Nat.not_lt_zero 0), fun hc => absurd hc hh⟩
      | succ j =>
        have hj : j < rest.length := Nat.lt_of_succ_lt_succ h
        simp only [List.get]
        constructor
        · intro hc; exact absurd hc (Nat.not_lt_zero _)
        · intro hc
          exfalso
          have hmem := List.get_mem rest j hj
          have hfacts := chainFrom_mem_facts rest c1.max hrest _ hmem
          have hge := chainFrom_min_ge rest c1.max hrest _ hmem
          have hk1 : k1 < (rest.get ⟨j, hj⟩).1 := by
            rw [hkey, hfacts.1]
            exact lt_of_le_of_lt hge hfacts.2
          exact hh (lt_trans hk1 hc)

/-- In a chained table, the min of the `j+1`-st chunk is the key (= max) of
the `j`-th entry. -/
lemma chain_get_min_succ :
    ∀ (m : ChunkMap) (lo : Key), chainFrom lo m = true →
      ∀ (j : Nat) (h : j + 1 < m.length),
        (m.get ⟨j + 1, h⟩).2.min =
          (m.get ⟨j, Nat.lt_of_succ_lt h⟩).1 := by
  intro m
  induction m with
  | nil => intro lo _ j h; cases h
  | cons hd rest ih =>
    intro lo hch j h
    obtain ⟨k1, c1⟩ := hd
    obtain ⟨hmin, hkey, hlt, hrest⟩ := chainFrom_cons lo k1 c1 rest hch
    cases j with
    | zero =>
      have hr : 0 < rest.length := Nat.lt_of_succ_lt_succ h
      cases rest with
      | nil => cases hr
      | cons hd2 rest2 =>
        obtain ⟨k2, c2⟩ := hd2
        obtain ⟨hmin2, _, _, _⟩ :=
          chainFrom_cons c1.max k2 c2 rest2 hrest
        simp only [List.get]
        rw [hmin2, hkey]
    | succ j' =>
      have hj : j' + 1 < rest.length := Nat.lt_of_succ_lt_succ h
      simp only [List.get]
      exact ih c1.max hrest j' hj

/-- A Boolean predicate that holds exactly on an index window `[lo, hi)` of a
list selects, via `filter`, exactly the slice `drop lo |>.take (hi - lo)`. -/
lemma filter_eq_drop_take {α : Type} (p : α → Bool) :
    ∀ (l : List α) (lo hi : Nat),
      (∀ (i : Nat) (h : i < l.length),
        (p (l.get ⟨i, h⟩) = true ↔ (lo ≤ i ∧ i < hi))) →
      l.filter p = (l.drop lo).take (hi - lo) := by
  intro l
  induction l with
  | nil => intro lo hi _; simp
  | cons a t ih =>
    intro lo hi hwin
    cases lo with
    | zero =>
      cases hi with
      | zero =>
        have hnone : ∀ x ∈ a :: t, p x = false := by
          intro x hx
          obtain ⟨⟨iv, hivlt⟩, hget⟩ := List.mem_iff_get.mp hx
          have hw := hwin iv hivlt
          rw [hget] at hw
          cases hp : p x
          · rfl
          · exact absurd (hw.mp hp).2 (Nat.not_lt_zero iv)
        rw [List.filter_eq_nil_iff.mpr
          (fun x hx => by rw [hnone x hx]; simp)]
        simp
      | succ h' =>
        have hpa : p a = true := by
          have := hwin 0 (Nat.succ_pos _)
          simp only [List.get] at this
          exact this.mpr ⟨Nat.le_refl 0, Nat.succ_pos _⟩
        have hrec := ih 0 h' (by
          intro i hi'
          have := hwin (i + 1) (Nat.succ_lt_succ hi')
          simp only [List.get] at this
          rw [this]
          omega)
        simp only [Nat.sub_zero, List.drop_zero] at hrec
        simp only [List.filter_cons, hpa, if_pos, List.drop_zero,
          Nat.sub_zero, List.take_succ_cons]
        rw [hrec]
    | succ l0 =>
      have hpa : p a = false := by
        have := hwin 0 (Nat.succ_pos _)
        simp only [List.get] at this
        cases hp : p a
        · rfl
        · exact absurd (this.mp hp).1 (by omega)
      have hrec := ih l0 (hi - 1) (by
        intro i hi'
        have := hwin (i + 1) (Nat.succ_lt_succ hi')
        simp only [List.get] at this
        rw [this]
        omega)
      have hsub : hi - 1 - l0 = hi - (l0 + 1) := by omega
      rw [hsub] at hrec
      simp only [List.filter_cons, hpa, List.drop_succ_cons]
      simp only [Bool.false_eq_true, if_false]
      rw [hrec]

/-- Generic upper-window characterisation of a chunk's min: for a monotone
key predicate `P` whose truth on keys is exactly "index below `hi0`", the
`i`-th chunk's min satisfies `P` exactly when `i` is below `hi0` advanced by
one position unless `hi0` is already at the end. -/
lemma min_window_aux :
    ∀ (m : ChunkMap) (lo : Key), chainFrom lo m = true →
      ∀ (P : Key → Prop) (hi0 : Nat), P lo →
        (∀ (j : Nat) (hj : j < m.length), (j < hi0 ↔ P ((m.get ⟨j, hj⟩).1))) →
        ∀ (i : Nat) (h : i < m.length),
          (P ((m.get ⟨i, h⟩).2.min) ↔
            i < (if hi0 = m.length then hi0 else hi0 + 1)) := by
  intro m lo hchain P hi0 hP0 hkeychar i h
  cases i with
  | zero =>
    have hmin : (m.get ⟨0, h⟩).2.min = lo := by
      cases m with
      | nil => cases h
      | cons hd rest =>
        obtain ⟨k1, c1⟩ := hd
        obtain ⟨hmin1, _, _, _⟩ := chainFrom_cons lo k1 c1 rest hchain
        exact hmin1
    rw [hmin]
    constructor
    · intro _
      by_cases hc : hi0 = m.length
      · rw [if_pos hc, hc]; exact h
      · rw [if_neg hc]; exact Nat.succ_pos _
    · intro _; exact hP0
  | succ j =>
    have hj : j < m.length := Nat.lt_of_succ_lt h
    have hmin : (m.get ⟨j + 1, h⟩).2.min = (m.get ⟨j, hj⟩).1 :=
      chain_get_min_succ m lo hchain j h
    rw [hmin, ← hkeychar j hj]
    by_cases hc : hi0 = m.length
    · rw [if_pos hc]
      exact iff_of_true (hc ▸ hj) (hc ▸ h)
    · rw [if_neg hc]
      omega

/-- Index-window characterisation of `rangeOverlaps` against the iterator
pair of `_overlappingRanges`: for a valid table, the `i`-th chunk overlaps
the queried range exactly when `i` lies in `[itMin, itMax)`. -/
lemma rangeOverlaps_window :
    ∀ (m : ChunkMap) (mn mx : Key) (inc : Bool),
      isValidPartition m = true → (inc = false → mn < mx) →
      ∀ (i : Nat) (h : i < m.length),
        (rangeOverlaps ((m.get ⟨i, h⟩).2) mn mx inc = true ↔
          ((overlappingRanges m mn mx inc).1 ≤ i ∧
            i < (overlappingRanges m mn mx inc).2)) := by
  intro m mn mx inc hv hexcl i h
  cases m with
  | nil => cases h
  | cons hd rest =>
    obtain ⟨k1, c1⟩ := hd
    cases hl : ((k1, c1) :: rest).getLast? with
    | none => simp at hl
    | some e1 =>
      simp only [isValidPartition, hl, Bool.and_eq_true, decide_eq_true_eq]
        at hv
      have hchain : chainFrom c1.min ((k1, c1) :: rest) = true := hv.1.2
      have hmin0 : c1.min = BElem.minKey := hv.1.1
      have hfacts := chainFrom_mem_facts _ c1.min hchain _
        (List.get_mem ((k1, c1) :: rest) i h)
      have hub := ub_window ((k1, c1) :: rest) c1.min mn hchain i h
      have hA : (mn < ((((k1, c1) :: rest).get ⟨i, h⟩).2).max ↔
          upperBoundIdx ((k1, c1) :: rest) mn ≤ i) := by
        rw [← hfacts.1]
        constructor
        · intro hlt
          rcases Nat.lt_or_ge i (upperBoundIdx ((k1, c1) :: rest) mn) with
            hc | hc
          · exact absurd (hub.mp hc) (not_le_of_lt hlt)
          · exact hc
        · intro hle
          rcases lt_or_le mn ((((k1, c1) :: rest).get ⟨i, h⟩).1) with hc | hc
          · exact hc
          · exact absurd (hub.mpr hc) (Nat.not_lt.mpr hle)
      cases inc with
      | true =>
        have hBB := min_window_aux ((k1, c1) :: rest) c1.min hchain
          (fun x => x ≤ mx) (upperBoundIdx ((k1, c1) :: rest) mx)
          (by rw [hmin0]; exact BElem.minKey_le mx)
          (fun j hj => ub_window ((k1, c1) :: rest) c1.min mx hchain j hj) i h
        simp only [rangeOverlaps, overlappingRanges, if_true,
          Bool.and_eq_true, decide_eq_true_eq]
        constructor
        · rintro ⟨h1, h2⟩; exact ⟨hA.mp h2, hBB.mp h1⟩
        · rintro ⟨h1, h2⟩; exact ⟨hBB.mpr h2, hA.mpr h1⟩
      | false =>
        have hBB := min_window_aux ((k1, c1) :: rest) c1.min hchain
          (fun x => x < mx) (lowerBoundIdx ((k1, c1) :: rest) mx)
          (by
            rw [hmin0]
            exact lt_of_le_of_lt (BElem.minKey_le mn) (hexcl rfl))
          (fun j hj => lb_window ((k1, c1) :: rest) c1.min mx hchain j hj) i h
        simp only [rangeOverlaps, overlappingRanges, Bool.false_eq_true,
          if_false, Bool.and_eq_true, decide_eq_true_eq]
        constructor
        · rintro ⟨h1, h2⟩; exact ⟨hA.mp h2, hBB.mp h1⟩
        · rintro ⟨h1, h2⟩; exact ⟨hBB.mpr h2, hA.mpr h1⟩

/-- C5: on a valid table, `_overlappingRanges` — upper-bound at the range
start; upper-bound (inclusive max) or lower-bound (exclusive max) at the
range end, advanced one position unless already at the end — yields exactly
the chunks whose ranges intersect the queried range, in ascending key order
(the slice equals the order-preserving filter of the table); and
`rangeOverlaps` states genuine intersection: a key common to the chunk's
half-open range and the queried range exists. -/
theorem c5_overlappingRanges_exact :
    ∀ (m : ChunkMap) (mn mx : Key) (inc : Bool),
      isValidPartition m = true →
      (inc = false → mn < mx) →
      (chunksInRange m mn mx inc =
        (m.filter (fun e => rangeOverlaps e.2 mn mx inc)).map
          (fun e => e.2)) ∧
      (∀ c : Chunk, c.min < c.max → (inc = true → mn ≤ mx) →
        (rangeOverlaps c mn mx inc = true ↔
          ∃ x : Key, c.min ≤ x ∧ x < c.max ∧ mn ≤ x ∧
            (inc = true → x ≤ mx) ∧ (inc = false → x < mx))) := by
  intro m mn mx inc hv hexcl
  constructor
  · have hfil := filter_eq_drop_take (fun e => rangeOverlaps e.2 mn mx inc) m
      (overlappingRanges m mn mx inc).1 (overlappingRanges m mn mx inc).2
      (fun i h => rangeOverlaps_window m mn mx inc hv hexcl i h)
    rw [hfil]
    rfl
  · intro c hc hmnmx
    cases inc with
    | true =>
      simp only [rangeOverlaps, if_true, Bool.and_eq_true, decide_eq_true_eq]
      constructor
      · rintro ⟨h1, h2⟩
        refine ⟨max mn c.min, le_max_right mn c.min, max_lt h2 hc,
          le_max_left mn c.min, fun _ => max_le (hmnmx rfl) h1, ?_⟩
        intro hff; exact absurd hff (by decide)
      · rintro ⟨x, hx1, hx2, hx3, hx4, _⟩
        exact ⟨le_trans hx1 (hx4 (by trivial)), lt_of_le_of_lt hx3 hx2⟩
    | false =>
      simp only [rangeOverlaps, Bool.false_eq_true, if_false,
        Bool.and_eq_true, decide_eq_true_eq]
      constructor
      · rintro ⟨h1, h2⟩
        refine ⟨max mn c.min, le_max_right mn c.min, max_lt h2 hc,
          le_max_left mn c.min, ?_, fun _ => max_lt (hexcl rfl) h1⟩
        intro htt; exact absurd htt (by decide)
      · rintro ⟨x, hx1, hx2, hx3, _, hx5⟩
        exact ⟨lt_of_le_of_lt hx1 (hx5 (by trivial)), lt_of_le_of_lt hx3 hx2⟩

/-- Witness for C5: on the valid two-chunk table `exMap`, the exclusive
range `[5, 10)` selects exactly the chunks intersecting it (only the
`[MinKey, 10)` chunk), and the intersection predicate is witnessed by an
actual common key. -/
theorem c5_overlappingRanges_exact_witness :
    isValidPartition exMap = true ∧
    chunksInRange exMap (BElem.val 5) (BElem.val 10) false =
      (exMap.filter
        (fun e => rangeOverlaps e.2 (BElem.val 5) (BElem.val 10) false)).map
        (fun e => e.2) ∧
    (rangeOverlaps exChunkLow (BElem.val 5) (BElem.val 10) false = true ↔
      ∃ x : Key, exChunkLow.min ≤ x ∧ x < exChunkLow.max ∧
        BElem.val 5 ≤ x ∧ (false = true → x ≤ BElem.val 10) ∧
        (false = false → x < BElem.val 10)) :=
  ⟨by decide,
   (c5_overlappingRanges_exact exMap (BElem.val 5) (BElem.val 10) false
      (by decide) (fun _ => by decide)).1,
   (c5_overlappingRanges_exact exMap (BElem.val 5) (BElem.val 10) false
      (by decide) (fun _ => by decide)).2 exChunkLow (by decide)
     (fun h => absurd h (by decide))⟩

/-! ### C7 — shard version index construction -/

lemma svmSet_find_eq :
    ∀ (svm : ShardVersionMap) (s : Nat) (v : ChunkVersion),
      svmFind (svmSet svm s v) s = some v := by
  intro svm
  induction svm with
  | nil => intro s v; simp [svmSet, svmFind]
  | cons e rest ih =>
    intro s v
    unfold svmSet
    by_cases h1 : s < e.1
    · rw [if_pos h1]; simp [svmFind]
    · rw [if_neg h1]
      by_cases h2 : s = e.1
      · rw [if_pos h2]; simp [svmFind, h2]
      · rw [if_neg h2]; simp only [svmFind, if_neg h2]; exact ih s v

lemma svmSet_find_ne :
    ∀ (svm : ShardVersionMap) (s : Nat) (v : ChunkVersion) (q : Nat),
      q ≠ s → svmFind (svmSet svm s v) q = svmFind svm q := by
  intro svm
  induction svm with
  | nil => intro s v q hq; simp [svmSet, svmFind, hq]
  | cons e rest ih =>
    intro s v q hq
    unfold svmSet
    by_cases h1 : s < e.1
    · rw [if_pos h1]
      simp only [svmFind, if_neg hq]
    · rw [if_neg h1]
      by_cases h2 : s = e.1
      · rw [if_pos h2]
        have hqe : ¬ q = e.1 := by rw [← h2]; exact hq
        simp only [svmFind, if_neg hqe]
      · rw [if_neg h2]
        by_cases h3 : q = e.1
        · simp only [svmFind, if_pos h3]
        · simp only [svmFind, if_neg h3]
          exact ih s v q hq

lemma runScan_spec :
    ∀ (m : ChunkMap) (s : Nat) (v : ChunkVersion) (lc : Chunk),
      (runScan s v lc m).1 =
        (m.takeWhile (fun e => e.2.shard == s)).foldl
          (fun a e => if cvGT e.2.version a then e.2.version else a) v ∧
      (runScan s v lc m).2.1 =
        ((m.takeWhile (fun e => e.2.shard == s)).map (fun e => e.2)).getLastD
          lc ∧
      (runScan s v lc m).2.2 = m.dropWhile (fun e => e.2.shard == s) := by
  intro m
  induction m with
  | nil => intro s v lc; exact ⟨rfl, rfl, rfl⟩
  | cons e rest ih =>
    intro s v lc
    by_cases h : e.2.shard = s
    · have hp : (fun x : Key × Chunk => x.2.shard == s) e = true := by
        simp [h]
      have hscan : runScan s v lc (e :: rest) =
          runScan s (if cvGT e.2.version v then e.2.version else v) e.2
            rest := by
        simp only [runScan]
        rw [if_neg (fun hcon => hcon h)]
      obtain ⟨ih1, ih2, ih3⟩ :=
        ih s (if cvGT e.2.version v then e.2.version else v) e.2
      have htw : List.takeWhile (fun x : Key × Chunk => x.2.shard == s)
          (e :: rest) =
          e :: List.takeWhile (fun x : Key × Chunk => x.2.shard == s) rest := by
        simp [List.takeWhile_cons, hp]
      have hdw : List.dropWhile (fun x : Key × Chunk => x.2.shard == s)
          (e :: rest) =
          List.dropWhile (fun x : Key × Chunk => x.2.shard == s) rest := by
        simp [List.dropWhile_cons, hp]
      rw [hscan, htw, hdw]
      refine ⟨?_, ?_, ih3⟩
      · rw [List.foldl_cons]; exact ih1
      · rw [List.map_cons, List.getLastD_cons]; exact ih2
    · have hp : (fun x : Key × Chunk => x.2.shard == s) e = false := by
        simp [h]
      have hscan : runScan s v lc (e :: rest) = (v, lc, e :: rest) := by
        simp only [runScan]
        rw [if_pos h]
      have htw : List.takeWhile (fun x : Key × Chunk => x.2.shard == s)
          (e :: rest) = [] := by
        simp [List.takeWhile_cons, hp]
      have hdw : List.dropWhile (fun x : Key × Chunk => x.2.shard == s)
          (e :: rest) = e :: rest := by
        simp [List.dropWhile_cons, hp]
      rw [hscan, htw, hdw]
      exact ⟨rfl, rfl, rfl⟩

lemma svmExpect_nil (epoch : Nat) (o : Option ChunkVersion) :
    svmExpect epoch o [] = o := by
  cases o <;> rfl

lemma svmExpect_some (epoch : Nat) (v : ChunkVersion)
    (vs : List ChunkVersion) :
    svmExpect epoch (some v) vs =
      some (vs.foldl (fun a w => if cvGT w a then w else a) v) := by
  cases vs <;> rfl

lemma svmExpect_run (epoch : Nat) (o : Option ChunkVersion)
    (vs1 vs2 : List ChunkVersion) (h : vs1 ≠ []) :
    svmExpect epoch o (vs1 ++ vs2) =
      svmExpect epoch
        (some (vs1.foldl (fun a w => if cvGT w a then w else a)
          (o.getD ⟨0, 0, epoch⟩))) vs2 := by
  cases vs1 with
  | nil => exact absurd rfl h
  | cons w vs1' =>
    rw [svmExpect_some]
    cases o with
    | none =>
      simp only [svmExpect, List.cons_append, List.foldl_cons]
      rw [List.foldl_append]
    | some v0 =>
      simp only [svmExpect, List.cons_append, List.foldl_cons]
      rw [List.foldl_append]

/-- One unfolding step of the `_constructShardVersionMap` loop. -/
lemma svmLoop_cons (epoch : Nat) (k : Key) (c : Chunk) (rest : ChunkMap)
    (svm : ShardVersionMap) (fm lm : Option Key) :
    svmLoop epoch ((k, c) :: rest) svm fm lm =
      svmLoop epoch
        (runScan c.shard ((svmFind svm c.shard).getD ⟨0, 0, epoch⟩) c
          ((k, c) :: rest)).2.2
        (svmSet svm c.shard
          (runScan c.shard ((svmFind svm c.shard).getD ⟨0, 0, epoch⟩) c
            ((k, c) :: rest)).1)
        (some (fm.getD c.min))
        (some (runScan c.shard ((svmFind svm c.shard).getD ⟨0, 0, epoch⟩) c
          ((k, c) :: rest)).2.1.max) := by
  simp only [svmLoop]

/-- The net effect of the `_constructShardVersionMap` loop on one shard's
entry: the fold of all of that shard's chunk versions (in table order) on top
of the pre-existing entry, or no entry when the shard owns no chunk and had
none. -/
lemma svmLoop_find (epoch : Nat) :
    ∀ (m : ChunkMap) (svm : ShardVersionMap) (fm lm : Option Key) (s : Nat),
      svmFind (svmLoop epoch m svm fm lm).1 s =
        svmExpect epoch (svmFind svm s)
          ((m.filter (fun e => e.2.shard == s)).map
            (fun e => e.2.version)) := by
  intro m svm fm lm
  induction m, svm, fm, lm using svmLoop.induct epoch with
  | case1 svm fm lm =>
    intro s
    simp only [svmLoop, List.filter_nil, List.map_nil, svmExpect_nil]
  | case2 k c rest svm fm lm v0 r ih =>
    intro s
    rw [svmLoop_cons epoch k c rest svm fm lm]
    set RS := runScan c.shard ((svmFind svm c.shard).getD ⟨0, 0, epoch⟩) c
      ((k, c) :: rest) with hRS
    have ih' : ∀ t : Nat,
        svmFind (svmLoop epoch RS.2.2 (svmSet svm c.shard RS.1)
          (some (fm.getD c.min))
          (some RS.2.1.max)).1 t =
        svmExpect epoch (svmFind (svmSet svm c.shard RS.1) t)
          ((RS.2.2.filter (fun e => e.2.shard == t)).map
            (fun e => e.2.version)) := fun t => ih t
    rw [ih' s]
    have hrs := runScan_spec ((k, c) :: rest) c.shard
      ((svmFind svm c.shard).getD ⟨0, 0, epoch⟩) c
    rw [← hRS] at hrs
    rw [hrs.2.2]
    by_cases hs : s = c.shard
    · subst hs
      rw [svmSet_find_eq, hrs.1]
      have hptrue : (fun e : Key × Chunk => e.2.shard == c.shard) (k, c) =
          true := by simp
      have htw : ((k, c) :: rest).takeWhile
          (fun e : Key × Chunk => e.2.shard == c.shard) =
          (k, c) :: rest.takeWhile
            (fun e : Key × Chunk => e.2.shard == c.shard) := by
        simp [List.takeWhile_cons, hptrue]
      have hsplit : (((k, c) :: rest).filter
            (fun e : Key × Chunk => e.2.shard == c.shard)).map
            (fun e => e.2.version) =
          ((((k, c) :: rest).takeWhile
            (fun e : Key × Chunk => e.2.shard == c.shard)).map
            (fun e => e.2.version)) ++
          ((((k, c) :: rest).dropWhile
            (fun e : Key × Chunk => e.2.shard == c.shard)).filter
            (fun e : Key × Chunk => e.2.shard == c.shard)).map
            (fun e => e.2.version) := by
        conv_lhs =>
          rw [← List.takeWhile_append_dropWhile
            (fun e : Key × Chunk => e.2.shard == c.shard) ((k, c) :: rest)]
        rw [List.filter_append, List.map_append]
        congr 2
        exact List.filter_eq_self.mpr (fun a ha =>
          @List.mem_takeWhile_imp (Key × Chunk)
            (fun e => e.2.shard == c.shard) ((k, c) :: rest) a ha)
      rw [hsplit]
      rw [svmExpect_run epoch (svmFind svm c.shard) _ _ (by rw [htw]; simp)]
      congr 1
      rw [List.foldl_map]
    · rw [svmSet_find_ne svm c.shard _ s hs]
      have hfil : ((k, c) :: rest).filter
          (fun e : Key × Chunk => e.2.shard == s) =
          (((k, c) :: rest).dropWhile
            (fun e : Key × Chunk => e.2.shard == c.shard)).filter
            (fun e : Key × Chunk => e.2.shard == s) := by
        conv_lhs =>
          rw [← List.takeWhile_append_dropWhile
            (fun e : Key × Chunk => e.2.shard == c.shard) ((k, c) :: rest)]
        rw [List.filter_append]
        have hnil : (((k, c) :: rest).takeWhile
            (fun e : Key × Chunk => e.2.shard == c.shard)).filter
            (fun e : Key × Chunk => e.2.shard == s) = [] := by
          rw [List.filter_eq_nil_iff]
          intro a ha
          have hsh : a.2.shard = c.shard := by
            have := List.mem_takeWhile_imp ha
            simpa using this
          simp only [hsh, beq_iff_eq]
          exact fun hcon => hs hcon.symm
        rw [hnil, List.nil_append]
      rw [hfil]

/-- C7: the shard version index produced by a full rebuild maps each shard
owning at least one chunk to the maximum (by combined word) chunk version
over all of that shard's chunks in the whole table — separated runs all
contribute to the same single recorded maximum — starting from the default
`(0, 0, epoch)`; shards owning no chunk get no entry.  The same holds of the
map `_constructShardVersionMap` returns when its sentinel checks pass. -/
theorem c7_shard_version_map_is_max :
    (∀ (epoch : Nat) (m : ChunkMap) (s : Nat),
      svmFind (svmLoop epoch m [] none none).1 s =
        (if (m.filter (fun e => e.2.shard == s)) = [] then none
         else some (cvMaxFold epoch
           ((m.filter (fun e => e.2.shard == s)).map
             (fun e => e.2.version))))) ∧
    (∀ (epoch : Nat) (m : ChunkMap) (s : Nat) (svm' : ShardVersionMap),
      constructShardVersionMap epoch m = .ok svm' →
      svmFind svm' s =
        (if (m.filter (fun e => e.2.shard == s)) = [] then none
         else some (cvMaxFold epoch
           ((m.filter (fun e => e.2.shard == s)).map
             (fun e => e.2.version))))) := by
  have hmain : ∀ (epoch : Nat) (m : ChunkMap) (s : Nat),
      svmFind (svmLoop epoch m [] none none).1 s =
        (if (m.filter (fun e => e.2.shard == s)) = [] then none
         else some (cvMaxFold epoch
           ((m.filter (fun e => e.2.shard == s)).map
             (fun e => e.2.version)))) := by
    intro epoch m s
    rw [svmLoop_find epoch m [] none none s]
    by_cases hf : (m.filter (fun e : Key × Chunk => e.2.shard == s)) = []
    · rw [if_pos hf, hf]
      rfl
    · rw [if_neg hf]
      cases hfl : m.filter (fun e : Key × Chunk => e.2.shard == s) with
      | nil => exact absurd hfl hf
      | cons a l =>
        simp only [List.map_cons, svmExpect, cvMaxFold]
        rfl
  refine ⟨hmain, ?_⟩
  intro epoch m s svm' h
  have hsvm : svm' = (svmLoop epoch m [] none none).1 := by
    simp only [constructShardVersionMap] at h
    by_cases he : m.isEmpty = true
    · rw [if_pos he] at h
      exact (Except.ok.inj h).symm
    · rw [if_neg he] at h
      cases h1 : (svmLoop epoch m [] none none).2.1 with
      | none => rw [h1] at h; cases (svmLoop epoch m [] none none).2.2 <;>
          exact absurd h (by simp)
      | some fm =>
        cases h2 : (svmLoop epoch m [] none none).2.2 with
        | none => rw [h1, h2] at h; exact absurd h (by simp)
        | some lm =>
          rw [h1, h2] at h
          have h' : (if fm = BElem.minKey then
              (if lm = BElem.maxKey then
                Except.ok (svmLoop epoch m [] none none).1
              else Except.error CMError.sentinelViolation)
            else (Except.error CMError.sentinelViolation :
              Except CMError ShardVersionMap)) = Except.ok svm' := h
          by_cases hfm : fm = BElem.minKey
          · rw [if_pos hfm] at h'
            by_cases hlm : lm = BElem.maxKey
            · rw [if_pos hlm] at h'
              exact (Except.ok.inj h').symm
            · rw [if_neg hlm] at h'; exact absurd h' (by simp)
          · rw [if_neg hfm] at h'; exact absurd h' (by simp)
  rw [hsvm]
  exact hmain epoch m s

/-- Evaluation of the shard version map loop on the concrete table `exMap`
(well-founded recursion is unfolded step by step). -/
lemma svmLoop_exMap_eval :
    svmLoop 7 exMap [] none none =
      ([(0, exVersion), (1, exVersion)], some BElem.minKey,
        some BElem.maxKey) := by
  have h1 : svmLoop 7 exMap [] none none =
      svmLoop 7 [(BElem.maxKey, exChunkHigh)] [(0, exVersion)]
        (some BElem.minKey) (some (BElem.val 10)) := by
    rw [show svmLoop 7 exMap [] none none =
      svmLoop 7 ((BElem.val 10, exChunkLow) ::
        [(BElem.maxKey, exChunkHigh)]) [] none none from rfl]
    rw [svmLoop_cons]
    rfl
  have h2 : svmLoop 7 [(BElem.maxKey, exChunkHigh)] [(0, exVersion)]
      (some BElem.minKey) (some (BElem.val 10)) =
      svmLoop 7 [] [(0, exVersion), (1, exVersion)] (some BElem.minKey)
        (some BElem.maxKey) := by
    rw [svmLoop_cons]
    rfl
  have h3 : svmLoop 7 [] [(0, exVersion), (1, exVersion)]
      (some BElem.minKey) (some BElem.maxKey) =
      ([(0, exVersion), (1, exVersion)], some BElem.minKey,
        some BElem.maxKey) := by
    simp [svmLoop]
  exact h1.trans (h2.trans h3)

/-- Witness for C7's rebuild conjunct: the index built for `exMap`
(successfully, sentinels intact) records for shard 0 the maximum version of
its single chunk. -/
theorem c7_shard_version_map_is_max_witness :
    constructShardVersionMap 7 exMap = .ok [(0, exVersion), (1, exVersion)] ∧
    svmFind [(0, exVersion), (1, exVersion)] 0 =
      (if (exMap.filter (fun e => e.2.shard == 0)) = [] then none
       else some (cvMaxFold 7
         ((exMap.filter (fun e => e.2.shard == 0)).map
           (fun e => e.2.version)))) := by
  have hcon : constructShardVersionMap 7 exMap =
      .ok [(0, exVersion), (1, exVersion)] := by
    simp only [constructShardVersionMap, svmLoop_exMap_eval]
    decide
  exact ⟨hcon,
    c7_shard_version_map_is_max.2 7 exMap 0 [(0, exVersion), (1, exVersion)]
      hcon⟩

/-! ### C1 — the routing-table invariant under the update protocols -/

lemma upperBoundIdx_mono :
    ∀ (m : ChunkMap) (k k' : Key), k ≤ k' →
      upperBoundIdx m k ≤ upperBoundIdx m k' := by
  intro m
  induction m with
  | nil => intro k k' _; exact Nat.le_refl 0
  | cons e rest ih =>
    intro k k' hkk
    simp only [upperBoundIdx]
    by_cases h1 : e.1 ≤ k
    · rw [if_pos h1, if_pos (le_trans h1 hkk)]
      exact Nat.succ_le_succ (ih k k' hkk)
    · rw [if_neg h1]
      exact Nat.zero_le _

lemma sortedKeys_iff_chain :
    ∀ m : ChunkMap,
      sortedKeys m = true ↔ List.Chain' (fun a b => a.1 < b.1) m := by
  intro m
  induction m with
  | nil => simp [sortedKeys]
  | cons a rest ih =>
    cases rest with
    | nil => simp [sortedKeys]
    | cons b rest2 =>
      rw [List.chain'_cons, ← ih]
      simp [sortedKeys]

lemma sortedKeys_of_sublist :
    ∀ (m m' : ChunkMap), m'.Sublist m → sortedKeys m = true →
      sortedKeys m' = true := by
  intro m m' hsub hs
  haveI : IsTrans (Key × Chunk) (fun a b => a.1 < b.1) :=
    ⟨fun a b c h1 h2 => lt_trans h1 h2⟩
  rw [sortedKeys_iff_chain] at hs ⊢
  rw [List.chain'_iff_pairwise] at hs ⊢
  exact List.Pairwise.sublist hsub hs

lemma eraseRange_sublist (m : ChunkMap) (lo hi : Nat) (h : lo ≤ hi) :
    (eraseRange m lo hi).Sublist m := by
  unfold eraseRange
  have hdrop : m.drop hi = (m.drop lo).drop (hi - lo) := by
    rw [List.drop_drop]
    congr 1
    omega
  rw [hdrop]
  have h1 : (m.take lo ++ (m.drop lo).drop (hi - lo)).Sublist
      (m.take lo ++ m.drop lo) :=
    List.Sublist.append_left (List.drop_sublist _ _) _
  rw [List.take_append_drop lo m] at h1
  exact h1

lemma mapInsert_sorted :
    ∀ (m : ChunkMap) (k : Key) (c : Chunk), sortedKeys m = true →
      sortedKeys (mapInsert m k c) = true := by
  intro m
  induction m with
  | nil => intro k c _; rfl
  | cons e rest ih =>
    intro k c hs
    unfold mapInsert
    by_cases h1 : k < e.1
    · rw [if_pos h1]
      simp only [sortedKeys, Bool.and_eq_true, decide_eq_true_eq]
      exact ⟨h1, hs⟩
    · rw [if_neg h1]
      by_cases h2 : k = e.1
      · rw [if_pos h2]; exact hs
      · rw [if_neg h2]
        have hek : e.1 < k :=
          lt_of_le_of_ne (le_of_not_lt h1) (fun hcon => h2 hcon.symm)
        cases rest with
        | nil =>
          simp only [mapInsert, sortedKeys, Bool.and_eq_true,
            decide_eq_true_eq]
          exact ⟨hek, trivial⟩
        | cons e2 rest2 =>
          have hs2 : e.1 < e2.1 ∧ sortedKeys (e2 :: rest2) = true := by
            simp only [sortedKeys, Bool.and_eq_true, decide_eq_true_eq] at hs
            exact hs
          have hrec := ih k c hs2.2
          unfold mapInsert at hrec ⊢
          by_cases h3 : k < e2.1
          · rw [if_pos h3] at hrec ⊢
            simp only [sortedKeys, Bool.and_eq_true, decide_eq_true_eq]
              at hrec ⊢
            exact ⟨hek, hrec⟩
          · rw [if_neg h3] at hrec ⊢
            by_cases h4 : k = e2.1
            · rw [if_pos h4] at hrec ⊢
              simp only [sortedKeys, Bool.and_eq_true, decide_eq_true_eq]
              exact ⟨hs2.1, hs2.2⟩
            · rw [if_neg h4] at hrec ⊢
              simp only [sortedKeys, Bool.and_eq_true, decide_eq_true_eq]
                at hrec ⊢
              exact ⟨hs2.1, hrec⟩

lemma mapInsert_mem :
    ∀ (m : ChunkMap) (k : Key) (c : Chunk) (e : Key × Chunk),
      e ∈ mapInsert m k c → e ∈ m ∨ e = (k, c) := by
  intro m
  induction m with
  | nil =>
    intro k c e he
    simp only [mapInsert, List.mem_singleton] at he
    exact Or.inr he
  | cons e0 rest ih =>
    intro k c e he
    unfold mapInsert at he
    by_cases h1 : k < e0.1
    · rw [if_pos h1] at he
      rcases List.mem_cons.mp he with h | h
      · exact Or.inr h
      · exact Or.inl h
    · rw [if_neg h1] at he
      by_cases h2 : k = e0.1
      · rw [if_pos h2] at he
        exact Or.inl he
      · rw [if_neg h2] at he
        rcases List.mem_cons.mp he with h | h
        · exact Or.inl (h ▸ List.mem_cons_self e0 rest)
        · rcases ih k c e h with h' | h'
          · exact Or.inl (List.mem_cons_of_mem e0 h')
          · exact Or.inr h'

lemma replaceOverlapping_sorted (m : ChunkMap) (c : Chunk)
    (hs : sortedKeys m = true) (hc : c.min ≤ c.max) :
    sortedKeys (replaceOverlapping m c) = true := by
  unfold replaceOverlapping
  exact mapInsert_sorted _ c.max c
    (sortedKeys_of_sublist m _
      (eraseRange_sublist m _ _ (upperBoundIdx_mono m c.min c.max hc)) hs)

lemma replaceOverlapping_keyed (m : ChunkMap) (c : Chunk)
    (hk : ∀ e ∈ m, e.1 = e.2.max) :
    ∀ e ∈ replaceOverlapping m c, e.1 = e.2.max := by
  intro e he
  unfold replaceOverlapping at he
  rcases mapInsert_mem _ c.max c e he with h | h
  · have hsub : (eraseRange m (upperBoundIdx m c.min)
        (upperBoundIdx m c.max)) ⊆ m := by
      unfold eraseRange
      intro x hx
      rcases List.mem_append.mp hx with h' | h'
      · exact List.mem_of_mem_take h'
      · exact List.mem_of_mem_drop h'
    exact hk e (hsub h)
  · rw [h]

lemma applyChunks_shape :
    ∀ (changed : List Chunk) (cv : ChunkVersion) (m : ChunkMap)
      (out : ChunkMap × ChunkVersion),
      (∀ c ∈ changed, c.min ≤ c.max) →
      sortedKeys m = true → (∀ e ∈ m, e.1 = e.2.max) →
      applyChunks cv m changed = .ok out →
      sortedKeys out.1 = true ∧ (∀ e ∈ out.1, e.1 = e.2.max) := by
  intro changed
  induction changed with
  | nil =>
    intro cv m out _ hs hk h
    simp only [applyChunks] at h
    have := Except.ok.inj h
    rw [← this]
    exact ⟨hs, hk⟩
  | cons c rest ih =>
    intro cv m out hmin hs hk h
    simp only [applyChunks] at h
    by_cases h1 : cv.epoch ≠ c.version.epoch
    · rw [if_pos h1] at h; exact absurd h (by simp)
    · rw [if_neg h1] at h
      by_cases h2 : ¬ cvGE c.version cv
      · rw [if_pos h2] at h; exact absurd h (by simp)
      · rw [if_neg h2] at h
        exact ih c.version (replaceOverlapping m c) out
          (fun x hx => hmin x (List.mem_cons_of_mem c hx))
          (replaceOverlapping_sorted m c hs
            (hmin c (List.mem_cons_self c rest)))
          (replaceOverlapping_keyed m c hk) h

lemma updateChunksMapLoop_shape :
    ∀ (changed : List Chunk) (cv : ChunkVersion)
      (mgr : ChunkManagerWithLock),
      (∀ c ∈ changed, c.min ≤ c.max) →
      sortedKeys mgr.chunkMap = true →
      (∀ e ∈ mgr.chunkMap, e.1 = e.2.max) →
      sortedKeys (updateChunksMapLoop cv mgr changed).1.chunkMap = true ∧
      (∀ e ∈ (updateChunksMapLoop cv mgr changed).1.chunkMap,
        e.1 = e.2.max) := by
  intro changed
  induction changed with
  | nil => intro cv mgr _ hs hk; exact ⟨hs, hk⟩
  | cons c rest ih =>
    intro cv mgr hmin hs hk
    simp only [updateChunksMapLoop]
    by_cases h1 : cv.epoch ≠ c.version.epoch
    · rw [if_pos h1]; exact ⟨hs, hk⟩
    · rw [if_neg h1]
      by_cases h2 : ¬ cvGE c.version cv
      · rw [if_pos h2]; exact ⟨hs, hk⟩
      · rw [if_neg h2]
        exact ih c.version _
          (fun x hx => hmin x (List.mem_cons_of_mem c hx))
          (replaceOverlapping_sorted mgr.chunkMap c hs
            (hmin c (List.mem_cons_self c rest)))
          (replaceOverlapping_keyed mgr.chunkMap c hk)

lemma svmLoop_fm (epoch : Nat) :
    ∀ (m : ChunkMap) (svm : ShardVersionMap) (fm lm : Option Key)
      (x : Key), fm = some x →
      (svmLoop epoch m svm fm lm).2.1 = some x := by
  intro m svm fm lm
  induction m, svm, fm, lm using svmLoop.induct epoch with
  | case1 svm fm lm =>
    intro x hfm
    simp only [svmLoop]
    exact hfm
  | case2 k c rest svm fm lm v0 r ih =>
    intro x hfm
    rw [svmLoop_cons epoch k c rest svm fm lm]
    exact ih x (by rw [hfm]; rfl)

/-- The loop's `firstMin` output is the first chunk's min. -/
lemma svmLoop_fm_head (epoch : Nat) (k : Key) (c : Chunk) (rest : ChunkMap)
    (svm : ShardVersionMap) (lm : Option Key) :
    (svmLoop epoch ((k, c) :: rest) svm none lm).2.1 = some c.min := by
  rw [svmLoop_cons epoch k c rest svm none lm]
  exact svmLoop_fm epoch _ _ _ _ c.min rfl

/-- The loop's `lastMax` output is the last chunk's max. -/
lemma svmLoop_lm (epoch : Nat) :
    ∀ (m : ChunkMap) (svm : ShardVersionMap) (fm lm : Option Key)
      (e1 : Key × Chunk), m.getLast? = some e1 →
      (svmLoop epoch m svm fm lm).2.2 = some e1.2.max := by
  intro m svm fm lm
  induction m, svm, fm, lm using svmLoop.induct epoch with
  | case1 svm fm lm => intro e1 hl; cases hl
  | case2 k c rest svm fm lm v0 r ih =>
    intro e1 hl
    rw [svmLoop_cons epoch k c rest svm fm lm]
    set RS := runScan c.shard ((svmFind svm c.shard).getD ⟨0, 0, epoch⟩) c
      ((k, c) :: rest) with hRS
    have ih' : ∀ e : Key × Chunk, RS.2.2.getLast? = some e →
        (svmLoop epoch RS.2.2 (svmSet svm c.shard RS.1)
          (some (fm.getD c.min)) (some RS.2.1.max)).2.2 = some e.2.max :=
      fun e he => ih e he
    have hrs := runScan_spec ((k, c) :: rest) c.shard
      ((svmFind svm c.shard).getD ⟨0, 0, epoch⟩) c
    rw [← hRS] at hrs
    cases hdw : ((k, c) :: rest).dropWhile
        (fun e : Key × Chunk => e.2.shard == c.shard) with
    | nil =>
      have hrs22 : RS.2.2 = [] := by rw [hrs.2.2, hdw]
      have htw : ((k, c) :: rest).takeWhile
          (fun e : Key × Chunk => e.2.shard == c.shard) = (k, c) :: rest := by
        have := List.takeWhile_append_dropWhile
          (fun e : Key × Chunk => e.2.shard == c.shard) ((k, c) :: rest)
        rw [hdw, List.append_nil] at this
        exact this
      have hlast : RS.2.1 = e1.2 := by
        rw [hrs.2.1, htw, List.getLastD_eq_getLast?, List.getLast?_map, hl]
        rfl
      rw [hrs22]
      simp only [svmLoop]
      rw [hlast]
    | cons d dw' =>
      have hgl : RS.2.2.getLast? = some e1 := by
        rw [hrs.2.2, hdw]
        have hsplit := List.takeWhile_append_dropWhile
          (fun e : Key × Chunk => e.2.shard == c.shard) ((k, c) :: rest)
        rw [← hsplit, hdw] at hl
        rw [List.getLast?_append_of_ne_nil _ (by simp)] at hl
        exact hl
      exact ih' e1 hgl

/-- When `_constructShardVersionMap` succeeds on a non-empty table, the
sentinel checks passed: the first chunk's min is the minimum sentinel and the
last chunk's max is the maximum sentinel. -/
lemma constructShardVersionMap_ok_sentinels (epoch : Nat) :
    ∀ (m : ChunkMap) (svm' : ShardVersionMap),
      constructShardVersionMap epoch m = .ok svm' → m ≠ [] →
      m.head?.map (fun e => e.2.min) = some BElem.minKey ∧
      m.getLast?.map (fun e => e.2.max) = some BElem.maxKey := by
  intro m svm' h hne
  cases m with
  | nil => exact absurd rfl hne
  | cons hd rest =>
    obtain ⟨k, c⟩ := hd
    cases hl : ((k, c) :: rest).getLast? with
    | none => simp at hl
    | some e1 =>
      have hfm := svmLoop_fm_head epoch k c rest [] none
      have hlm := svmLoop_lm epoch ((k, c) :: rest) [] none none e1 hl
      simp only [constructShardVersionMap] at h
      rw [if_neg (by simp)] at h
      rw [hfm, hlm] at h
      have h' : (if c.min = BElem.minKey then
          (if e1.2.max = BElem.maxKey then
            Except.ok (svmLoop epoch ((k, c) :: rest) [] none none).1
          else Except.error CMError.sentinelViolation)
        else (Except.error CMError.sentinelViolation :
          Except CMError ShardVersionMap)) = Except.ok svm' := h
      by_cases hc1 : c.min = BElem.minKey
      · rw [if_pos hc1] at h'
        by_cases hc2 : e1.2.max = BElem.maxKey
        · simp [hc1, hc2]
        · rw [if_neg hc2] at h'; exact absurd h' (by simp)
      · rw [if_neg hc1] at h'; exact absurd h' (by simp)

/-- C1 (amended): tables reachable through the two update protocols always
keep their keys in strictly ascending encoded order with every entry keyed by
its chunk's max; on a full rebuild that produces a new manager with a
non-empty table, the first chunk's min is the global minimum sentinel and the
last chunk's max is the global maximum sentinel, and a violation of that
sentinel condition makes the rebuild fail (`_constructShardVersionMap`'s
fatal consistency check); the gap-free/non-overlap condition on adjacent
chunks, however, is NOT re-established by the code after each individual
replace-overlapping mutation and can be violated by reachable tables. -/
theorem c1_routing_table_invariant :
    ∀ (mgr : ChunkManagerWithLock) (counter : Nat) (changed : List Chunk),
      (∀ c ∈ changed, c.min ≤ c.max) →
      sortedKeys mgr.chunkMap = true →
      (∀ e ∈ mgr.chunkMap, e.1 = e.2.max) →
      (∀ out, makeUpdated mgr counter changed = .ok out →
        sortedKeys out.1.chunkMap = true ∧
        (∀ e ∈ out.1.chunkMap, e.1 = e.2.max) ∧
        (cvEqOp out.1.collectionVersion mgr.collectionVersion = false →
          out.1.chunkMap ≠ [] →
          out.1.chunkMap.head?.map (fun e => e.2.min) = some BElem.minKey ∧
          out.1.chunkMap.getLast?.map (fun e => e.2.max) =
            some BElem.maxKey)) ∧
      (sortedKeys (UpdateChunksMap mgr counter changed).1.chunkMap = true ∧
        (∀ e ∈ (UpdateChunksMap mgr counter changed).1.chunkMap,
          e.1 = e.2.max)) ∧
      (∀ (cm : ChunkMap) (cv : ChunkVersion),
        applyChunks mgr.collectionVersion mgr.chunkMap changed =
          .ok (cm, cv) →
        cvEqOp cv mgr.collectionVersion = false →
        constructShardVersionMap cv.epoch cm = .error .sentinelViolation →
        makeUpdated mgr counter changed = .error .sentinelViolation) := by
  intro mgr counter changed hmin hs hk
  refine ⟨?_, ?_, ?_⟩
  · intro out h
    unfold makeUpdated at h
    cases happ : applyChunks mgr.collectionVersion mgr.chunkMap changed with
    | error e => rw [happ] at h; exact absurd h (by simp)
    | ok p =>
      obtain ⟨cm, cv⟩ := p
      rw [happ] at h
      simp only at h
      by_cases hcv : cvEqOp cv mgr.collectionVersion = true
      · rw [if_pos hcv] at h
        have hout := Except.ok.inj h
        rw [← hout]
        refine ⟨hs, hk, ?_⟩
        intro hfalse _
        rw [cvEqOp_refl] at hfalse
        exact absurd hfalse (by simp)
      · rw [if_neg hcv] at h
        unfold mkChunkManager at h
        cases hsvm : constructShardVersionMap cv.epoch cm with
        | error e => rw [hsvm] at h; exact absurd h (by simp)
        | ok svm =>
          rw [hsvm] at h
          have hout := Except.ok.inj h
          have hcm : out.1.chunkMap = cm := by rw [← hout]
          have hshape := applyChunks_shape changed mgr.collectionVersion
            mgr.chunkMap (cm, cv) hmin hs hk happ
          rw [hcm]
          refine ⟨hshape.1, hshape.2, ?_⟩
          intro _ hne
          exact constructShardVersionMap_ok_sentinels cv.epoch cm svm hsvm
            (hcm ▸ hne)
  · have hshape := updateChunksMapLoop_shape changed mgr.collectionVersion
      mgr hmin hs hk
    rcases hL : updateChunksMapLoop mgr.collectionVersion mgr changed with
      ⟨mgr1, cv1, err⟩
    rw [hL] at hshape
    cases err with
    | some e =>
      have hU : UpdateChunksMap mgr counter changed =
          (mgr1, counter, some e) := by
        simp only [UpdateChunksMap, hL]
      rw [hU]
      exact hshape
    | none =>
      have hU : UpdateChunksMap mgr counter changed =
          (if cvEqOp mgr1.collectionVersion cv1 then
            ({ mgr1 with shardVersionSize := mgr1.shardVersions.length,
                         collectionVersion := cv1 }, counter, none)
          else
            ({ mgr1 with shardVersionSize := mgr1.shardVersions.length,
                         collectionVersion := cv1,
                         sequenceNumber := nextSeq counter },
              nextSeq counter, none)) := by
        simp only [UpdateChunksMap, hL]
      rw [hU]
      by_cases hc : cvEqOp mgr1.collectionVersion cv1 = true
      · rw [if_pos hc]; exact hshape
      · rw [if_neg hc]; exact hshape
  · intro cm cv happ hcv hsvm
    unfold makeUpdated
    rw [happ]
    simp only
    rw [if_neg (by rw [hcv]; simp)]
    unfold mkChunkManager
    rw [hsvm]

/-- Witness for C1 (amended): the split batch `[exSplitA, exSplitB]` over the
valid manager `exMgr` satisfies the hypotheses (well-formed chunk ranges,
sorted table keyed by max), so both protocols preserve order/keying and a
genuine rebuild ends with the sentinels in place. -/
theorem c1_routing_table_invariant_witness :
    ((∀ c ∈ [exSplitA, exSplitB], c.min ≤ c.max) ∧
      sortedKeys exMgr.chunkMap = true ∧
      (∀ e ∈ exMgr.chunkMap, e.1 = e.2.max)) ∧
    ((∀ out, makeUpdated exMgr 5 [exSplitA, exSplitB] = .ok out →
        sortedKeys out.1.chunkMap = true ∧
        (∀ e ∈ out.1.chunkMap, e.1 = e.2.max) ∧
        (cvEqOp out.1.collectionVersion exMgr.collectionVersion = false →
          out.1.chunkMap ≠ [] →
          out.1.chunkMap.head?.map (fun e => e.2.min) = some BElem.minKey ∧
          out.1.chunkMap.getLast?.map (fun e => e.2.max) =
            some BElem.maxKey)) ∧
      (sortedKeys (UpdateChunksMap exMgr 5 [exSplitA, exSplitB]).1.chunkMap =
          true ∧
        (∀ e ∈ (UpdateChunksMap exMgr 5 [exSplitA, exSplitB]).1.chunkMap,
          e.1 = e.2.max)) ∧
      (∀ (cm : ChunkMap) (cv : ChunkVersion),
        applyChunks exMgr.collectionVersion exMgr.chunkMap
          [exSplitA, exSplitB] = .ok (cm, cv) →
        cvEqOp cv exMgr.collectionVersion = false →
        constructShardVersionMap cv.epoch cm = .error .sentinelViolation →
        makeUpdated exMgr 5 [exSplitA, exSplitB] =
          .error .sentinelViolation)) :=
  ⟨⟨by decide, by decide, by decide⟩,
   c1_routing_table_invariant exMgr 5 [exSplitA, exSplitB]
     (by decide) (by decide) (by decide)⟩

/-- Counterexample to C1 as stated: applying the first half of a split alone
— precisely the intermediate state of the batch `[exSplitA, exSplitB]` after
its first replace-overlapping mutation — leaves a reachable table that is NOT
a gap-free, non-overlapping partition (the old `[10, MaxKey)` chunk still
overlaps the new `[10, 15)` chunk), with no error reported. -/
theorem c1_counterexample :
    isValidPartition exMgr.chunkMap = true ∧
    (UpdateChunksMap exMgr 5 [exSplitA]).2.2 = none ∧
    isValidPartition ((UpdateChunksMap exMgr 5 [exSplitA]).1.chunkMap) =
      false := by
  decide

end MongoS
